import Mathlib

/-!
Shallow embedding of the 2048 game library (crate `2048-tools-rs`).

The embedding follows `src/core.rs` (struct `Game`) for the board-transition
engine, construction, move application and the best-move search, and
`src/core_2048.rs` (struct `Game2048`) for the three-way move-result
classification of `Game2048::make_move`.

Machine integers (`u64`, `usize`) are modelled as `Nat`: all quantities are
non-negative, board values are powers of two far below `2^64` on any board
reachable in practice, and wrap-around plays no role in the claims below.

Randomness is modelled by explicit parameters: the spawner's uniform choice
among empty cells becomes an arbitrary index `k : Nat` (reduced modulo the
number of candidates) and the 2-vs-4 decision (`gen::<f64>() < 0.9`) becomes a
boolean `four`.  A `.unwrap()` that can panic is modelled with `Option`:
`none` is the panic case.
-/

/-- The four moves, `GameMove` in `core.rs` (`Move2048` in `core_2048.rs`). -/
inductive GameMove where
  | Left
  | Right
  | Up
  | Down
deriving DecidableEq, Repr

namespace GameMove

/-- `GameMove::index` from `core.rs`: position of the move in the four-entry
arrays `moves`, `moves_next`, `score_next`. -/
def index : GameMove → Nat
  | .Left => 0
  | .Right => 1
  | .Up => 2
  | .Down => 3

/-- `GameMove::from_index` from `core.rs`.  The source panics on an index
above 3; the model returns `Down` there (the function is only ever applied
to indices 0–3). -/
def fromIndex : Nat → GameMove
  | 0 => .Left
  | 1 => .Right
  | 2 => .Up
  | _ => .Down

end GameMove

/-- `GameState` from `core.rs`. -/
inductive GameState where
  | InProgress
  | GameOver
deriving DecidableEq, Repr

/-- `GameResult` from `core.rs`. -/
inductive GameResult where
  | Pending
  | Victory
  | Loss
deriving DecidableEq, Repr

/-- `Error` from `error.rs`. -/
inductive Error where
  | InvalidSize
  | InvalidBoard
  | InvalidValue
  | NoValidMove
deriving DecidableEq, Repr

/-- A board: the `Vec<Vec<u64>>` of `core.rs`, rows of cells. -/
abbrev Board := List (List Nat)

/-- One step of the fused slide-and-merge loop of `Game::update` (the
`update left` loop in `core.rs`).  The state is the output written so far in
reverse order (head = the cell at index `j - 1`), the `merge` flag, and the
accumulated score; `elem` is the next non-zero tile of the line. -/
def leftStep : List Nat × Bool × Nat → Nat → List Nat × Bool × Nat
  | (out, mergeFlag, score), elem =>
    match mergeFlag, out with
    | true, lastv :: rest =>
      if elem = lastv then (2 * lastv :: rest, false, score + 2 * lastv)
      else (elem :: lastv :: rest, true, score)
    | _, _ => (elem :: out, true, score)

/-- Append zeros on the right up to length `n`: the trailing zero-fill
(`for empty_elem in ... skip(j)`) of the per-line loops in `Game::update`. -/
def padRight (n : Nat) (l : List Nat) : List Nat :=
  l ++ List.replicate (n - l.length) 0

/-- The per-line transform of `Game::update` toward the low-index edge (the
`update left` loop of `core.rs`, also each column of the `update up` loop):
iterate `leftStep` over the non-zero tiles of the line, then zero-fill the
tail.  Returns the new line together with its score delta. -/
def slideLine (n : Nat) (row : List Nat) : List Nat × Nat :=
  match (row.filter (fun x => x != 0)).foldl leftStep ([], false, 0) with
  | (out, _, score) => (padRight n out.reverse, score)

/-- The per-line transform toward the high-index edge (the `update right`
loop of `core.rs`, also each column of the `update down` loop).  The source
loop is the exact mirror image of the `update left` loop: it consumes the
non-zero tiles from the right, writes from the right end, and zero-fills the
front; this equals running `slideLine` on the reversed line and reversing. -/
def slideLineRev (n : Nat) (row : List Nat) : List Nat × Nat :=
  match slideLine n row.reverse with
  | (l, s) => (l.reverse, s)

/-- Index-based transpose, as the `transpose` closure of
`Game2048::update_moves` (`new_board[i][j] = board[j][i]`); `core.rs` reads
columns directly, which computes the same lines. -/
def transposeB (b : Board) : Board :=
  (List.range b.length).map (fun j => b.map (fun r => r.getD j 0))

/-- Board after the Left transform (`moves_next[0]` in `Game::update`). -/
def moveLeft (b : Board) : Board :=
  b.map (fun r => (slideLine r.length r).1)

/-- Score delta of the Left transform (`score_next[0]` in `Game::update`). -/
def deltaLeft (b : Board) : Nat :=
  (b.map (fun r => (slideLine r.length r).2)).sum

/-- Board after the Right transform (`moves_next[1]` in `Game::update`). -/
def moveRight (b : Board) : Board :=
  b.map (fun r => (slideLineRev r.length r).1)

/-- Score delta of the Right transform (`score_next[1]`). -/
def deltaRight (b : Board) : Nat :=
  (b.map (fun r => (slideLineRev r.length r).2)).sum

/-- Board after the Up transform (`moves_next[2]`): the left transform on
every column. -/
def moveUp (b : Board) : Board :=
  transposeB (moveLeft (transposeB b))

/-- Score delta of the Up transform (`score_next[2]`). -/
def deltaUp (b : Board) : Nat :=
  deltaLeft (transposeB b)

/-- Board after the Down transform (`moves_next[3]`): the right transform on
every column. -/
def moveDown (b : Board) : Board :=
  transposeB (moveRight (transposeB b))

/-- Score delta of the Down transform (`score_next[3]`). -/
def deltaDown (b : Board) : Nat :=
  deltaRight (transposeB b)

/-- The cached per-direction board of `Game::update`. -/
def transform : GameMove → Board → Board
  | .Left => moveLeft
  | .Right => moveRight
  | .Up => moveUp
  | .Down => moveDown

/-- The cached per-direction score delta of `Game::update`. -/
def delta : GameMove → Board → Nat
  | .Left => deltaLeft
  | .Right => deltaRight
  | .Up => deltaUp
  | .Down => deltaDown

/-- The four cached boards, in array order Left, Right, Up, Down
(`moves_next` in `core.rs`). -/
def nextCalc (b : Board) : List Board :=
  [moveLeft b, moveRight b, moveUp b, moveDown b]

/-- The four cached score deltas (`score_next` in `core.rs`). -/
def deltaCalc (b : Board) : List Nat :=
  [deltaLeft b, deltaRight b, deltaUp b, deltaDown b]

/-- The four legality flags: `self.moves[i] = self.board != self.moves_next[i]`
in `Game::update`. -/
def movesCalc (b : Board) : List Bool :=
  [decide (b ≠ moveLeft b), decide (b ≠ moveRight b),
   decide (b ≠ moveUp b), decide (b ≠ moveDown b)]

/-- `self.board.iter().flat_map(..).any(|&x| x >= 2048)` in `Game::update`. -/
def anyGe2048 (b : Board) : Bool :=
  b.any (fun r => r.any (fun c => decide (2048 ≤ c)))

/-- One cell of a board, with `0` outside the board. -/
def cellAt (b : Board) (i j : Nat) : Nat :=
  (b.getD i []).getD j 0

/-- Write one cell of a board (`self.board[i][j] = v`). -/
def setCell (b : Board) (i j v : Nat) : Board :=
  b.set i ((b.getD i []).set j v)

/-- The candidate list of `Game::new_tile`: the cartesian product of
`0..size` with itself, filtered to the empty tiles, in the iterator's order. -/
def emptyCells (b : Board) : List (Nat × Nat) :=
  ((List.range b.length).flatMap
    (fun i => (List.range b.length).map (fun j => (i, j)))).filter
    (fun p => cellAt b p.1 p.2 == 0)

/-- `Game::new_tile`: choose an empty cell (the uniform choice is the
arbitrary index `k`, reduced modulo the number of candidates) and write 2 or
4 there.  `none` models the panic of `.unwrap()` when no empty cell exists. -/
def newTile (b : Board) (k : Nat) (four : Bool) : Option Board :=
  match emptyCells b with
  | [] => none
  | c :: cs =>
    let cells := c :: cs
    let p := cells.getD (k % cells.length) (0, 0)
    some (setCell b p.1 p.2 (if four then 4 else 2))

/-- The game state of `core.rs`: board, score, the four cached score deltas,
legality flags and post-move boards (array order Left, Right, Up, Down),
game state and result.  The `rng_thread` field has no model; its draws are
the explicit `k`/`four` parameters of `newTile`. -/
structure Game where
  board : Board
  score : Nat
  scoreNext : List Nat
  moves : List Bool
  movesNext : List Board
  state : GameState
  result : GameResult
deriving DecidableEq, Repr

/-- `Game::update`: recompute the four cached transitions from the current
board, then the state (`GameOver` when no move is legal) and the result
(victory latch, else loss exactly when the game just ended). -/
def update (g : Game) : Game :=
  let mv := movesCalc g.board
  let st := if mv.any (fun x => x) then g.state else GameState.GameOver
  let res :=
    match g.result with
    | .Pending =>
      if anyGe2048 g.board then GameResult.Victory
      else if st = GameState.GameOver then GameResult.Loss
      else GameResult.Pending
    | r => r
  { g with
    movesNext := nextCalc g.board
    scoreNext := deltaCalc g.board
    moves := mv
    state := st
    result := res }

/-- The all-zero `size` × `size` board of `Game::new`. -/
def zeroBoard (n : Nat) : Board :=
  List.replicate n (List.replicate n 0)

/-- `Game::new`: reject sizes below 4, otherwise spawn one tile on the empty
board and compute the caches.  On the all-zero board every cell is a spawn
candidate, so the spawner's choice is inlined (its `.unwrap()` cannot fail
there). -/
def newGame (n : Nat) (k : Nat) (four : Bool) : Except Error Game :=
  if n < 4 then .error .InvalidSize
  else
    let b0 := zeroBoard n
    let cells := emptyCells b0
    let p := cells.getD (k % cells.length) (0, 0)
    let b1 := setCell b0 p.1 p.2 (if four then 4 else 2)
    .ok (update
      { board := b1, score := 0, scoreNext := [0, 0, 0, 0]
        moves := [true, true, true, true]
        movesNext := [b0, b0, b0, b0]
        state := .InProgress, result := .Pending })

/-- `u64::ilog2` (the floor base-2 logarithm), written as a structural
recursion on a fuel bound (`ilog2Fuel n n = Nat.log2 n`) so that it computes
by kernel reduction. -/
def ilog2Fuel : Nat → Nat → Nat
  | 0, _ => 0
  | fuel + 1, n => if n < 2 then 0 else ilog2Fuel fuel (n / 2) + 1

/-- `u64::ilog2`. -/
def ilog2 (n : Nat) : Nat := ilog2Fuel n n

theorem ilog2Fuel_eq_log2 (fuel n : Nat) (h : n ≤ fuel) :
    ilog2Fuel fuel n = Nat.log2 n := by
  induction fuel generalizing n with
  | zero =>
    have : n = 0 := by omega
    subst this
    rw [ilog2Fuel, Nat.log2]
    rfl
  | succ fuel ih =>
    rw [ilog2Fuel, Nat.log2]
    by_cases h2 : n < 2
    · rw [if_pos h2, if_neg (by omega)]
    · rw [if_neg h2, if_pos (by omega), ih (n / 2) (by omega)]

theorem ilog2_eq_log2 (n : Nat) : ilog2 n = Nat.log2 n :=
  ilog2Fuel_eq_log2 n n le_rfl

/-- Cell validation of `Game::from_existing`: 0 is allowed, 1 rejected, and
`c ≥ 2` must satisfy `2 ^ c.ilog2() == c`. -/
def validCell (c : Nat) : Bool :=
  match c with
  | 0 => true
  | 1 => false
  | _ => decide (2 ^ ilog2 c = c)

/-- `Game::from_existing`: checks, in order, side ≥ 4 (`InvalidSize`),
squareness (`InvalidBoard`), cell validity (`InvalidValue`); on success the
board is adopted as given (no tile is spawned) and the caches computed. -/
def fromExisting (b : Board) : Except Error Game :=
  let n := b.length
  if n < 4 then .error .InvalidSize
  else if b.any (fun r => r.length != n) then .error .InvalidBoard
  else if b.any (fun r => r.any (fun c => !validCell c)) then .error .InvalidValue
  else
    .ok (update
      { board := b, score := 0, scoreNext := [0, 0, 0, 0]
        moves := [true, true, true, true]
        movesNext := [zeroBoard n, zeroBoard n, zeroBoard n, zeroBoard n]
        state := .InProgress, result := .Pending })

/-- `Game::make_move`: on a legal direction adopt the cached board, add the
cached score delta, spawn one tile and recompute the caches, returning
`true`; on an illegal direction return `false` with the state untouched.
`none` models the panic of the spawner's `.unwrap()`. -/
def makeMove (g : Game) (d : GameMove) (k : Nat) (four : Bool) :
    Option (Bool × Game) :=
  if g.moves.getD d.index false then
    match newTile (g.movesNext.getD d.index []) k four with
    | none => none
    | some b' =>
      some (true, update
        { g with board := b', score := g.score + g.scoreNext.getD d.index 0 })
  else some (false, g)

/-- The game states reachable through the public constructors and
`make_move` of `core.rs`, over all random draws. -/
inductive Reachable : Game → Prop where
  | new : ∀ n k four g, newGame n k four = .ok g → Reachable g
  | fromEx : ∀ b g, fromExisting b = .ok g → Reachable g
  | step : ∀ g d k four fl g', Reachable g →
      makeMove g d k four = some (fl, g') → Reachable g'

/-- One fold step of `moves_values.iter().enumerate().max_by_key(|(_, &x)| x)`
in `Game::find_best_move`: Rust's `max_by_key` keeps the incoming element on
ties, so the last maximal element wins. -/
def selectStep (acc : Option (Nat × Nat)) (p : Nat × Nat) : Option (Nat × Nat) :=
  match acc with
  | none => some p
  | some q => if q.2 ≤ p.2 then some p else some q

/-- The selection step of `Game::find_best_move`: index of the entry chosen
by `max_by_key` over the enumerated score array.  The `0` default models the
`.unwrap()`, which cannot fire on the four-entry array. -/
def selectBest (vals : List Nat) : Nat :=
  match vals.enum.foldl selectStep none with
  | some p => p.1
  | none => 0

/-- `Game::find_best_move`, with the rollout phase abstracted: `scores d`
stands for the total rollout score accumulated for direction `d`
(`moves_values[d]`; entries of directions that run no rollouts stay 0).
The dispatch on the number of legal moves, and the final selection, are the
source's. -/
def findBestMove (g : Game) (depth : Nat) (scores : GameMove → Nat) :
    Except Error GameMove :=
  let _ := depth
  match (g.moves.filter (fun x => x)).length with
  | 0 => .error .NoValidMove
  | 1 => .ok (GameMove.fromIndex (g.moves.findIdx (fun x => x)))
  | _ =>
    let vals :=
      [if g.moves.getD 0 false then scores .Left else 0,
       if g.moves.getD 1 false then scores .Right else 0,
       if g.moves.getD 2 false then scores .Up else 0,
       if g.moves.getD 3 false then scores .Down else 0]
    .ok (GameMove.fromIndex (selectBest vals))

/-! ### Specification-side description of the line transform

`mergeLine` is written from the spec's words (section 4.1): after compaction,
"perform a single left-to-right (in slide direction) pass merging each tile
with its immediate neighbor if equal, doubling the surviving tile's value and
adding that doubled value to the score delta … each tile merges at most once
per move", leaving no gap between merged and unmerged tiles. -/

/-- Modelled from the spec: the single merging pass over a compacted
(zero-free) line; a merged tile is not eligible to merge again. -/
def mergeLine : List Nat → List Nat × Nat
  | [] => ([], 0)
  | [x] => ([x], 0)
  | x :: y :: rest =>
    if x = y then
      (2 * x :: (mergeLine rest).1, (mergeLine rest).2 + 2 * x)
    else
      (x :: (mergeLine (y :: rest)).1, (mergeLine (y :: rest)).2)

/-- The values `v` of the tile pairs merged by `mergeLine` (each pair of
equal tiles valued `v` becomes one tile `2 * v`). -/
def mergesOf : List Nat → List Nat
  | [] => []
  | [_] => []
  | x :: y :: rest =>
    if x = y then x :: mergesOf rest
    else mergesOf (y :: rest)

/-- Modelled from the spec (section 4.1): compact the non-zero tiles toward
the target edge, run the single merging pass, zero-fill the vacated tail. -/
def specLine (n : Nat) (row : List Nat) : List Nat × Nat :=
  match mergeLine (row.filter (fun x => x != 0)) with
  | (l, s) => (padRight n l, s)

/-- All tile pairs merged by one move, line by line: rows for `Left`,
reversed rows for `Right` (its pass runs right-to-left), and the same on
columns for `Up` / `Down`. -/
def boardMerges : GameMove → Board → List Nat
  | .Left, b => (b.map (fun r => mergesOf (r.filter (fun x => x != 0)))).flatten
  | .Right, b =>
      (b.map (fun r => mergesOf (r.reverse.filter (fun x => x != 0)))).flatten
  | .Up, b =>
      ((transposeB b).map (fun r => mergesOf (r.filter (fun x => x != 0)))).flatten
  | .Down, b =>
      ((transposeB b).map
        (fun r => mergesOf (r.reverse.filter (fun x => x != 0)))).flatten

/-! ### The `Game2048` variant (`core_2048.rs`)

Only what claim C6 needs: the control flow of `Game2048::make_move`, over the
transform of `Game2048::update_moves` (repeated bubble-compaction passes,
then an in-place merge scan using `rotate_left` / `rotate_right`). -/

/-- `Success2048` from `core_2048.rs`. -/
inductive Success2048 where
  | Moved
  | Victory
deriving DecidableEq, Repr

/-- `Error2048` from `core_2048.rs`. -/
inductive Error2048 where
  | InvalidMove
  | GameOver
deriving DecidableEq, Repr

/-- The body of one compaction pass of `Game2048::update_moves` toward the
front, with the element at the current index held in the first argument:
`if row[i] == 0 && row[i+1] != 0 { swap }`. -/
def bubbleAuxL : Nat → List Nat → List Nat × Bool
  | x, [] => ([x], false)
  | x, y :: rest =>
    if x = 0 ∧ y ≠ 0 then
      ((bubbleAuxL x rest).1.cons y, true)
    else
      ((bubbleAuxL y rest).1.cons x, (bubbleAuxL y rest).2)

/-- One pass of the compaction loop of `Game2048::update_moves` toward the
front, together with the `moved` flag. -/
def bubblePassL : List Nat → List Nat × Bool
  | [] => ([], false)
  | x :: rest => bubbleAuxL x rest

/-- The body of one compaction pass toward the back:
`if row[i] != 0 && row[i+1] == 0 { swap }`. -/
def bubbleAuxR : Nat → List Nat → List Nat × Bool
  | x, [] => ([x], false)
  | x, y :: rest =>
    if x ≠ 0 ∧ y = 0 then
      ((bubbleAuxR x rest).1.cons y, true)
    else
      ((bubbleAuxR y rest).1.cons x, (bubbleAuxR y rest).2)

/-- One pass of the compaction loop toward the back. -/
def bubblePassR : List Nat → List Nat × Bool
  | [] => ([], false)
  | x :: rest => bubbleAuxR x rest

/-- The `loop { … if !moved { break } }` compaction of
`Game2048::update_moves`; a pass that moves nothing ends the loop, and a row
of length `n` is fully compacted after at most `n - 1` moving passes, so
fuel `n` reproduces the loop exactly. -/
def compactWith (pass : List Nat → List Nat × Bool) : Nat → List Nat → List Nat
  | 0, row => row
  | fuel + 1, row =>
    match pass row with
    | (r, moved) => if moved then compactWith pass fuel r else row

/-- `row[(i+1)..].rotate_left(1)` on a list. -/
def rotTailLeft (row : List Nat) (i : Nat) : List Nat :=
  row.take i ++ (row.drop i).rotateLeft 1

/-- `row[..i].rotate_right(1)` on a list. -/
def rotHeadRight (row : List Nat) (i : Nat) : List Nat :=
  (row.take i).rotateRight 1 ++ row.drop i

/-- The merge scan of `Game2048::update_moves` toward the front:
`for i in 0..n-1 { if row[i] != 0 && row[i] == row[i+1] { row[i] *= 2; score
+= row[i]; row[i+1] = 0; row[(i+1)..].rotate_left(1); } }`, as a recursion on
the remaining iteration count (`i` is the current index). -/
def mergeScanL (row : List Nat) (score i : Nat) : Nat → List Nat × Nat
  | 0 => (row, score)
  | fuel + 1 =>
    let x := row.getD i 0
    if x ≠ 0 ∧ x = row.getD (i + 1) 0 then
      mergeScanL (rotTailLeft ((row.set i (2 * x)).set (i + 1) 0) (i + 1))
        (score + 2 * x) (i + 1) fuel
    else mergeScanL row score (i + 1) fuel

/-- The merge scan toward the back: `for i in (1..n).rev() { if row[i] != 0
&& row[i] == row[i-1] { row[i] *= 2; score += row[i]; row[i-1] = 0;
row[..i].rotate_right(1); } }`; the argument is the current index `i`. -/
def mergeScanR (row : List Nat) (score : Nat) : Nat → List Nat × Nat
  | 0 => (row, score)
  | i + 1 =>
    let x := row.getD (i + 1) 0
    if x ≠ 0 ∧ x = row.getD i 0 then
      mergeScanR (rotHeadRight ((row.set (i + 1) (2 * x)).set i 0) (i + 1))
        (score + 2 * x) i
    else mergeScanR row score i

/-- One line of `Game2048::update_moves` toward the front (used for Left,
and for Up on the transposed board): compact, then merge-scan. -/
def line2048L (r : List Nat) : List Nat × Nat :=
  mergeScanL (compactWith bubblePassL r.length r) 0 0 (r.length - 1)

/-- One line of `Game2048::update_moves` toward the back (Right / Down). -/
def line2048R (r : List Nat) : List Nat × Nat :=
  mergeScanR (compactWith bubblePassR r.length r) 0 (r.length - 1)

/-- The game state of `core_2048.rs` (`Game2048`), with the `moves` map and
the `moves_values` map as four-entry lists in index order Left, Right, Up,
Down.  `empty_tiles` and `rng_thrd` are modelled inside `newTile`. -/
structure Game2048 where
  board : Board
  score : Nat
  moves : List Bool
  movesValues : List (Board × Nat)
  won : Bool
deriving DecidableEq, Repr

/-- `Game2048::update_moves`: per direction, compute the transformed board
and score; a direction is recorded legal, with its value pair, exactly when
the transformed board differs from the current one (stale pairs of illegal
directions are kept, as in the source). -/
def update2048 (g : Game2048) : Game2048 :=
  let b := g.board
  let leftB := b.map (fun r => (line2048L r).1)
  let leftS := (b.map (fun r => (line2048L r).2)).sum
  let rightB := b.map (fun r => (line2048R r).1)
  let rightS := (b.map (fun r => (line2048R r).2)).sum
  let upB := transposeB ((transposeB b).map (fun r => (line2048L r).1))
  let upS := ((transposeB b).map (fun r => (line2048L r).2)).sum
  let downB := transposeB ((transposeB b).map (fun r => (line2048R r).1))
  let downS := ((transposeB b).map (fun r => (line2048R r).2)).sum
  { g with
    moves := [decide (leftB ≠ b), decide (rightB ≠ b),
              decide (upB ≠ b), decide (downB ≠ b)]
    movesValues :=
      [if leftB ≠ b then (leftB, leftS) else g.movesValues.getD 0 ([], 0),
       if rightB ≠ b then (rightB, rightS) else g.movesValues.getD 1 ([], 0),
       if upB ≠ b then (upB, upS) else g.movesValues.getD 2 ([], 0),
       if downB ≠ b then (downB, downS) else g.movesValues.getD 3 ([], 0)] }

/-- `Game2048::is_game_over`: no direction is legal. -/
def isGameOver2048 (g : Game2048) : Bool :=
  g.moves.all (fun x => x == false)

/-- `Game2048::is_game_won`: some tile reached 2048. -/
def isGameWon2048 (g : Game2048) : Bool :=
  g.board.any (fun r => r.any (fun c => decide (2048 ≤ c)))

/-- `Game2048::from_existing`: adopt the board (no validation beyond the
4×4 type, no spawn) and compute the caches. -/
def fromExisting2048 (b : Board) : Game2048 :=
  update2048
    { board := b, score := 0, moves := [true, true, true, true]
      movesValues :=
        [(zeroBoard 4, 0), (zeroBoard 4, 0), (zeroBoard 4, 0), (zeroBoard 4, 0)]
      won := false }

/-- `Game2048::make_move`: on an illegal direction, `Err(InvalidMove)` with
the state untouched.  On a legal one: adopt the cached board and score,
spawn a tile (`Game2048::new_tile`, same algorithm as `Game::new_tile`),
recompute the caches, then classify: `Err(GameOver)` when no legal move
remains, `Ok(Victory)` on the first move that reaches 2048 (latching `won`),
`Ok(Moved)` otherwise.  `none` models the spawner's `.unwrap()` panic. -/
def makeMove2048 (g : Game2048) (d : GameMove) (k : Nat) (four : Bool) :
    Option (Except Error2048 Success2048 × Game2048) :=
  if g.moves.getD d.index false then
    match newTile (g.movesValues.getD d.index ([], 0)).1 k four with
    | none => none
    | some b' =>
      let g1 := update2048
        { g with board := b'
                 score := g.score + (g.movesValues.getD d.index ([], 0)).2 }
      if isGameOver2048 g1 then some (.error .GameOver, g1)
      else if !g1.won && isGameWon2048 g1 then
        some (.ok .Victory, { g1 with won := true })
      else some (.ok .Moved, g1)
  else some (.error .InvalidMove, g)

/-! ### Lemmas about the merging pass -/

theorem mergeLine_cons_cons (x y : Nat) (rest : List Nat) :
    mergeLine (x :: y :: rest) =
      if x = y then
        (2 * x :: (mergeLine rest).1, (mergeLine rest).2 + 2 * x)
      else
        (x :: (mergeLine (y :: rest)).1, (mergeLine (y :: rest)).2) := rfl

theorem mergeLine_sum (l : List Nat) : (mergeLine l).1.sum = l.sum := by
  induction l using mergeLine.induct with
  | case1 => simp [mergeLine]
  | case2 x => simp [mergeLine]
  | case3 y rest ih =>
    rw [mergeLine_cons_cons, if_pos rfl]
    simp only [List.sum_cons, ih]
    omega
  | case4 x y rest h ih =>
    rw [mergeLine_cons_cons, if_neg h]
    simp only [List.sum_cons, ih]

theorem mergeLine_length_le (l : List Nat) : (mergeLine l).1.length ≤ l.length := by
  induction l using mergeLine.induct with
  | case1 => simp [mergeLine]
  | case2 x => simp [mergeLine]
  | case3 y rest ih =>
    rw [mergeLine_cons_cons, if_pos rfl]
    simp only [List.length_cons]
    omega
  | case4 x y rest h ih =>
    rw [mergeLine_cons_cons, if_neg h]
    simp only [List.length_cons] at ih ⊢
    omega

theorem mergeLine_length_eq (l : List Nat)
    (h : (mergeLine l).1.length = l.length) : mergeLine l = (l, 0) := by
  induction l using mergeLine.induct with
  | case1 => simp [mergeLine]
  | case2 x => simp [mergeLine]
  | case3 y rest ih =>
    exfalso
    have hle := mergeLine_length_le rest
    rw [mergeLine_cons_cons, if_pos rfl] at h
    simp only [List.length_cons] at h
    omega
  | case4 x y rest hne ih =>
    rw [mergeLine_cons_cons, if_neg hne] at h ⊢
    simp only [List.length_cons] at h
    have := ih (by simp only [List.length_cons]; omega)
    simp [this]

theorem mergeLine_score_zero (l : List Nat) (hz : ∀ x ∈ l, x ≠ 0)
    (h : (mergeLine l).2 = 0) : mergeLine l = (l, 0) := by
  induction l using mergeLine.induct with
  | case1 => simp [mergeLine]
  | case2 x => simp [mergeLine]
  | case3 y rest ih =>
    exfalso
    have hy : y ≠ 0 := hz y (by simp)
    rw [mergeLine_cons_cons, if_pos rfl] at h
    omega
  | case4 x y rest hne ih =>
    rw [mergeLine_cons_cons, if_neg hne] at h ⊢
    have := ih (fun a ha => hz a (by simp [ha])) h
    simp [this]

theorem mergesOf_cons_cons (x y : Nat) (rest : List Nat) :
    mergesOf (x :: y :: rest) =
      if x = y then x :: mergesOf rest else mergesOf (y :: rest) := rfl

theorem mergeLine_score (l : List Nat) :
    (mergeLine l).2 = ((mergesOf l).map (fun v => 2 * v)).sum := by
  induction l using mergeLine.induct with
  | case1 => simp [mergeLine, mergesOf]
  | case2 x => simp [mergeLine, mergesOf]
  | case3 y rest ih =>
    rw [mergeLine_cons_cons, if_pos rfl, mergesOf_cons_cons, if_pos rfl]
    simp only [List.map_cons, List.sum_cons, ih]
    omega
  | case4 x y rest h ih =>
    rw [mergeLine_cons_cons, if_neg h, mergesOf_cons_cons, if_neg h]
    simp only [List.map_cons, List.sum_cons, ih]

/-- The fused loop of `Game::update`, run from an ineligible state, computes
the spec's merging pass (paired with the eligible-state version,
by induction on a length bound). -/
theorem foldl_leftStep_spec (m : Nat) :
    (∀ l : List Nat, l.length ≤ m → ∀ out s, ∃ fl,
      l.foldl leftStep (out, false, s) =
        ((mergeLine l).1.reverse ++ out, fl, s + (mergeLine l).2)) ∧
    (∀ l : List Nat, l.length ≤ m → ∀ x out s, ∃ fl,
      l.foldl leftStep (x :: out, true, s) =
        ((mergeLine (x :: l)).1.reverse ++ out, fl,
          s + (mergeLine (x :: l)).2)) := by
  induction m with
  | zero =>
    constructor
    · intro l hl out s
      rw [List.length_eq_zero.mp (Nat.le_zero.mp hl)]
      exact ⟨false, by simp [mergeLine]⟩
    · intro l hl x out s
      rw [List.length_eq_zero.mp (Nat.le_zero.mp hl)]
      exact ⟨true, by simp [mergeLine]⟩
  | succ m ih =>
    constructor
    · intro l hl out s
      match l with
      | [] => exact ⟨false, by simp [mergeLine]⟩
      | z :: rest =>
        simp only [List.foldl_cons]
        have hstep : leftStep (out, false, s) z = (z :: out, true, s) := rfl
        rw [hstep]
        exact ih.2 rest (by simpa using Nat.le_of_succ_le_succ hl) z out s
    · intro l hl x out s
      match l with
      | [] => exact ⟨true, by simp [mergeLine]⟩
      | z :: rest =>
        simp only [List.foldl_cons]
        by_cases hzx : z = x
        · subst hzx
          have hstep : leftStep (z :: out, true, s) z =
              (2 * z :: out, false, s + 2 * z) := by
            simp [leftStep]
          rw [hstep]
          obtain ⟨fl, hfl⟩ :=
            ih.1 rest (by simpa using Nat.le_of_succ_le_succ hl)
              (2 * z :: out) (s + 2 * z)
          refine ⟨fl, ?_⟩
          rw [hfl, mergeLine_cons_cons, if_pos rfl]
          simp only [List.reverse_cons, List.append_assoc, List.singleton_append,
            Prod.mk.injEq]
          exact ⟨trivial, trivial, by omega⟩
        · have hstep : leftStep (x :: out, true, s) z = (z :: x :: out, true, s) := by
            simp [leftStep, hzx]
          rw [hstep]
          obtain ⟨fl, hfl⟩ :=
            ih.2 rest (by simpa using Nat.le_of_succ_le_succ hl) z (x :: out) s
          refine ⟨fl, ?_⟩
          rw [hfl, mergeLine_cons_cons, if_neg (fun hxz => hzx hxz.symm)]
          simp only [List.reverse_cons, List.append_assoc, List.singleton_append]

/-- The per-line transform of `Game::update` equals the spec's two-phase
description: compact, single merging pass, zero-fill. -/
theorem slideLine_eq_specLine (n : Nat) (row : List Nat) :
    slideLine n row = specLine n row := by
  obtain ⟨fl, hfl⟩ :=
    (foldl_leftStep_spec (row.filter (fun x => x != 0)).length).1
      (row.filter (fun x => x != 0)) le_rfl [] 0
  rw [slideLine, hfl, specLine]
  rcases h : mergeLine (row.filter (fun x => x != 0)) with ⟨l, s⟩
  simp
/-! ### List infrastructure lemmas -/

theorem padRight_sum (n : Nat) (l : List Nat) : (padRight n l).sum = l.sum := by
  simp [padRight, List.sum_replicate]

theorem padRight_length (n : Nat) (l : List Nat) (h : l.length ≤ n) :
    (padRight n l).length = n := by
  simp [padRight]
  omega

theorem padRight_eq_self (n : Nat) (l : List Nat) (h : n ≤ l.length) :
    padRight n l = l := by
  simp [padRight, Nat.sub_eq_zero_of_le h]

theorem padRight_countP (n : Nat) (l : List Nat) :
    (padRight n l).countP (fun x => x != 0) = l.countP (fun x => x != 0) := by
  simp [padRight, List.countP_append, List.countP_replicate]

theorem sum_filter_ne_zero (l : List Nat) :
    (l.filter (fun x => x != 0)).sum = l.sum := by
  induction l with
  | nil => rfl
  | cons x rest ih =>
    by_cases hx : x = 0
    · subst hx; simp [ih]
    · simp [List.filter_cons, hx, ih]

theorem filter_length_eq (p : Nat → Bool) (l : List Nat)
    (h : (l.filter p).length = l.length) : l.filter p = l := by
  induction l with
  | nil => rfl
  | cons x rest ih =>
    by_cases hx : p x
    · simp only [List.filter_cons, if_pos hx, List.length_cons] at h ⊢
      simp [hx, ih (by omega)]
    · exfalso
      have := List.length_filter_le p rest
      simp only [List.filter_cons, if_neg hx] at h
      simp only [List.length_cons] at h
      omega

theorem countP_ne_zero_eq_length_filter (l : List Nat) :
    l.countP (fun x => x != 0) = (l.filter (fun x => x != 0)).length := by
  simp [List.countP_eq_length_filter]

theorem sum_eq_range_getD (l : List Nat) :
    l.sum = ∑ j ∈ Finset.range l.length, l.getD j 0 := by
  induction l with
  | nil => simp
  | cons x rest ih =>
    rw [List.sum_cons, List.length_cons, Finset.sum_range_succ', ih]
    simp [List.getD_cons_succ, List.getD_cons_zero]
    omega

theorem countP_eq_range_getD (l : List Nat) :
    l.countP (fun x => x != 0) =
      ∑ j ∈ Finset.range l.length, (if l.getD j 0 = 0 then 0 else 1) := by
  induction l with
  | nil => simp
  | cons x rest ih =>
    rw [List.countP_cons, List.length_cons, Finset.sum_range_succ', ih]
    by_cases hx : x = 0 <;> simp [List.getD_cons_succ, List.getD_cons_zero, hx, Nat.add_comm]

theorem range_map_getD (l : List Nat) :
    (List.range l.length).map (fun j => l.getD j 0) = l := by
  apply List.ext_getElem
  · simp
  · intro i h1 h2
    simp only [List.getElem_map, List.getElem_range]
    rw [List.getD_eq_getElem l 0 h2]

/-! ### Board measures and transpose lemmas -/

/-- Total value on the board. -/
def sumBoard (b : Board) : Nat := (b.map List.sum).sum

/-- Number of non-zero tiles on the board. -/
def countTiles (b : Board) : Nat :=
  (b.map (fun r => r.countP (fun x => x != 0))).sum

/-- The board is square: every row is as long as the board is high. -/
def Squareb (b : Board) : Prop := ∀ r ∈ b, r.length = b.length

theorem sum_set_add (l : List Nat) (j v : Nat) (h : j < l.length) :
    (l.set j v).sum + l.getD j 0 = l.sum + v := by
  induction l generalizing j with
  | nil => simp at h
  | cons x rest ih =>
    cases j with
    | zero => simp [List.getD_cons_zero]; omega
    | succ j =>
      simp only [List.set_cons_succ, List.sum_cons, List.getD_cons_succ]
      have := ih j (by simpa using h)
      omega

theorem countP_set_add (l : List Nat) (j v : Nat) (h : j < l.length)
    (hz : l.getD j 0 = 0) (hv : v ≠ 0) :
    (l.set j v).countP (fun x => x != 0) = l.countP (fun x => x != 0) + 1 := by
  induction l generalizing j with
  | nil => simp at h
  | cons x rest ih =>
    cases j with
    | zero =>
      simp only [List.getD_cons_zero] at hz
      subst hz
      simp [List.countP_cons, hv]
    | succ j =>
      simp only [List.set_cons_succ, List.countP_cons, List.getD_cons_succ] at *
      have := ih j (by simpa using h) hz
      omega

theorem getD_map_sum (b : Board) (i : Nat) (h : i < b.length) :
    (b.map List.sum).getD i 0 = (b.getD i []).sum := by
  rw [List.getD_eq_getElem _ 0 (by simpa using h), List.getD_eq_getElem _ [] h]
  simp

theorem getD_map_countP (b : Board) (i : Nat) (h : i < b.length) :
    (b.map (fun r => r.countP (fun x => x != 0))).getD i 0 =
      (b.getD i []).countP (fun x => x != 0) := by
  rw [List.getD_eq_getElem _ 0 (by simpa using h), List.getD_eq_getElem _ [] h]
  simp

theorem row_length_of_squareb (b : Board) (hb : Squareb b) (i : Nat)
    (h : i < b.length) : (b.getD i []).length = b.length := by
  apply hb
  rw [List.getD_eq_getElem _ [] h]
  exact List.getElem_mem h

theorem sumBoard_eq_cells (b : Board) (hb : Squareb b) :
    sumBoard b = ∑ i ∈ Finset.range b.length, ∑ j ∈ Finset.range b.length,
      cellAt b i j := by
  rw [sumBoard, sum_eq_range_getD]
  simp only [List.length_map]
  apply Finset.sum_congr rfl
  intro i hi
  rw [Finset.mem_range] at hi
  rw [getD_map_sum b i hi, sum_eq_range_getD, row_length_of_squareb b hb i hi]
  rfl

theorem countTiles_eq_cells (b : Board) (hb : Squareb b) :
    countTiles b = ∑ i ∈ Finset.range b.length, ∑ j ∈ Finset.range b.length,
      (if cellAt b i j = 0 then 0 else 1) := by
  rw [countTiles, sum_eq_range_getD]
  simp only [List.length_map]
  apply Finset.sum_congr rfl
  intro i hi
  rw [Finset.mem_range] at hi
  rw [getD_map_countP b i hi, countP_eq_range_getD, row_length_of_squareb b hb i hi]
  rfl

theorem transposeB_length (b : Board) : (transposeB b).length = b.length := by
  simp [transposeB]

theorem Squareb_transposeB (b : Board) : Squareb (transposeB b) := by
  intro r hr
  simp only [transposeB, List.mem_map] at hr
  obtain ⟨j, _, rfl⟩ := hr
  simp [transposeB]

theorem cellAt_transposeB (b : Board) (i j : Nat) (hi : i < b.length) :
    cellAt (transposeB b) i j = cellAt b j i := by
  unfold cellAt transposeB
  rw [List.getD_eq_getElem _ [] (by simpa using hi)]
  simp only [List.getElem_map, List.getElem_range]
  by_cases hj : j < b.length
  · rw [List.getD_eq_getElem _ 0 (by simpa using hj), List.getElem_map,
      List.getD_eq_getElem _ [] hj]
  · rw [List.getD_eq_default _ 0 (by simpa using Nat.le_of_not_lt hj),
      List.getD_eq_default _ [] (by simpa using Nat.le_of_not_lt hj)]
    simp

theorem range_map_getD_of_length (r : List Nat) (n : Nat) (h : r.length = n) :
    (List.range n).map (fun j => r.getD j 0) = r := by
  subst h
  exact range_map_getD r

theorem transposeB_getDrow (x : Board) (i : Nat) (h : i < x.length) :
    (transposeB x).getD i [] = x.map (fun r => r.getD i 0) := by
  unfold transposeB
  rw [List.getD_eq_getElem _ [] (by simpa using h)]
  simp

theorem transposeB_transposeB (b : Board) (hb : Squareb b) :
    transposeB (transposeB b) = b := by
  apply List.ext_getElem
  · simp [transposeB]
  · intro i h1 h2
    rw [← List.getD_eq_getElem _ [] h1, ← List.getD_eq_getElem _ [] h2]
    rw [transposeB_getDrow (transposeB b) i (by simp [transposeB]; simpa using h2)]
    unfold transposeB
    rw [List.map_map]
    have hcongr : ∀ j ∈ List.range b.length,
        ((fun r => r.getD i 0) ∘ fun j => b.map (fun r => r.getD j 0)) j =
          (b.getD i []).getD j 0 := by
      intro j hj
      simp only [Function.comp]
      rw [List.getD_eq_getElem _ 0 (by simpa using h2), List.getElem_map,
        List.getD_eq_getElem _ [] h2]
    rw [List.map_congr_left hcongr,
      range_map_getD_of_length _ _ (row_length_of_squareb b hb i h2)]

theorem sumBoard_transposeB (b : Board) (hb : Squareb b) :
    sumBoard (transposeB b) = sumBoard b := by
  rw [sumBoard_eq_cells (transposeB b) (Squareb_transposeB b),
    sumBoard_eq_cells b hb, transposeB_length]
  rw [Finset.sum_comm]
  apply Finset.sum_congr rfl
  intro i hi
  apply Finset.sum_congr rfl
  intro j hj
  rw [Finset.mem_range] at hi hj
  exact cellAt_transposeB b j i hj

theorem countTiles_transposeB (b : Board) (hb : Squareb b) :
    countTiles (transposeB b) = countTiles b := by
  rw [countTiles_eq_cells (transposeB b) (Squareb_transposeB b),
    countTiles_eq_cells b hb, transposeB_length]
  rw [Finset.sum_comm]
  apply Finset.sum_congr rfl
  intro i hi
  apply Finset.sum_congr rfl
  intro j hj
  rw [Finset.mem_range] at hi hj
  rw [cellAt_transposeB b j i hj]

theorem sumBoard_setCell (b : Board) (i j v : Nat) (hi : i < b.length)
    (hj : j < (b.getD i []).length) :
    sumBoard (setCell b i j v) + cellAt b i j = sumBoard b + v := by
  unfold setCell sumBoard cellAt
  rw [List.map_set]
  have houter := sum_set_add (b.map List.sum) i ((b.getD i []).set j v).sum
    (by simpa using hi)
  have hinner := sum_set_add (b.getD i []) j v hj
  rw [getD_map_sum b i hi] at houter
  omega

theorem countTiles_setCell (b : Board) (i j v : Nat) (hi : i < b.length)
    (hj : j < (b.getD i []).length) (hz : cellAt b i j = 0) (hv : v ≠ 0) :
    countTiles (setCell b i j v) = countTiles b + 1 := by
  unfold setCell countTiles
  rw [List.map_set]
  have houter := sum_set_add (b.map (fun r => r.countP (fun x => x != 0))) i
    (((b.getD i []).set j v).countP (fun x => x != 0)) (by simpa using hi)
  have hinner := countP_set_add (b.getD i []) j v hj hz hv
  rw [getD_map_countP b i hi] at houter
  omega

theorem Squareb_setCell (b : Board) (i j v : Nat) :
    Squareb b → Squareb (setCell b i j v) := by
  intro hb
  by_cases hi : i < b.length
  · intro r hr
    unfold setCell at hr ⊢
    rw [List.length_set]
    rcases List.mem_or_eq_of_mem_set hr with h | h
    · exact hb r h
    · subst h
      rw [List.length_set]
      exact row_length_of_squareb b hb i hi
  · unfold setCell
    rw [List.set_eq_of_length_le (Nat.le_of_not_lt hi)]
    exact hb

theorem length_setCell (b : Board) (i j v : Nat) :
    (setCell b i j v).length = b.length := by
  simp [setCell]

/-! ### Per-line and per-direction transform lemmas -/

theorem slideLine_eq (n : Nat) (row : List Nat) :
    slideLine n row =
      (padRight n (mergeLine (row.filter (fun x => x != 0))).1,
       (mergeLine (row.filter (fun x => x != 0))).2) :=
  slideLine_eq_specLine n row

theorem slideLine_fst_sum (n : Nat) (row : List Nat) :
    (slideLine n row).1.sum = row.sum := by
  rw [slideLine_eq]
  simp only [padRight_sum, mergeLine_sum, sum_filter_ne_zero]

theorem slideLine_fst_length (n : Nat) (row : List Nat) (h : row.length ≤ n) :
    (slideLine n row).1.length = n := by
  rw [slideLine_eq]
  exact padRight_length n _
    (le_trans (le_trans (mergeLine_length_le _) (List.length_filter_le _ _)) h)

theorem slideLine_countP_of_score_zero (row : List Nat)
    (h : (slideLine row.length row).2 = 0) :
    (slideLine row.length row).1.countP (fun x => x != 0) =
      row.countP (fun x => x != 0) := by
  rw [slideLine_eq] at h ⊢
  simp only at h
  have hz : ∀ x ∈ row.filter (fun x => x != 0), x ≠ 0 := by
    intro x hx
    have := List.of_mem_filter hx
    simpa using this
  have hid := mergeLine_score_zero _ hz h
  rw [padRight_countP, hid]
  rw [List.countP_eq_length_filter]
  have : (row.filter (fun x => x != 0)).filter (fun x => x != 0) =
      row.filter (fun x => x != 0) := by
    rw [List.filter_filter]
    apply List.filter_congr
    intro x hx
    simp
  rw [this, ← List.countP_eq_length_filter]

theorem slideLine_full (row : List Nat)
    (h : ∀ x ∈ (slideLine row.length row).1, x ≠ 0) :
    (slideLine row.length row).1 = row := by
  rw [slideLine_eq] at h ⊢
  simp only at h ⊢
  set f := row.filter (fun x => x != 0) with hf
  by_cases hpad : (mergeLine f).1.length < row.length
  · exfalso
    apply h 0
    unfold padRight
    apply List.mem_append_right
    apply List.mem_replicate.mpr
    exact ⟨by omega, rfl⟩
    rfl
  · have hle : (mergeLine f).1.length ≤ f.length := mergeLine_length_le f
    have hle2 : f.length ≤ row.length := List.length_filter_le _ _
    have heq1 : (mergeLine f).1.length = f.length := by omega
    have heq2 : f.length = row.length := by omega
    have hid := mergeLine_length_eq f heq1
    have hfilt := filter_length_eq _ row heq2
    rw [hid]
    simp only
    rw [hf, hfilt]
    exact padRight_eq_self _ _ (by omega)

theorem slideLineRev_eq (n : Nat) (row : List Nat) :
    slideLineRev n row =
      ((slideLine n row.reverse).1.reverse, (slideLine n row.reverse).2) := rfl

theorem slideLineRev_fst_sum (n : Nat) (row : List Nat) :
    (slideLineRev n row).1.sum = row.sum := by
  rw [slideLineRev_eq]
  simp only [List.sum_reverse, slideLine_fst_sum]

theorem slideLineRev_fst_length (n : Nat) (row : List Nat) (h : row.length ≤ n) :
    (slideLineRev n row).1.length = n := by
  rw [slideLineRev_eq]
  simp only [List.length_reverse]
  exact slideLine_fst_length n _ (by simpa using h)

theorem slideLineRev_countP_of_score_zero (row : List Nat)
    (h : (slideLineRev row.length row).2 = 0) :
    (slideLineRev row.length row).1.countP (fun x => x != 0) =
      row.countP (fun x => x != 0) := by
  rw [slideLineRev_eq] at h ⊢
  simp only at h ⊢
  rw [List.countP_reverse]
  have hlen : row.length = row.reverse.length := (List.length_reverse row).symm
  rw [hlen] at h ⊢
  rw [slideLine_countP_of_score_zero row.reverse h, List.countP_reverse]

theorem slideLineRev_full (row : List Nat)
    (h : ∀ x ∈ (slideLineRev row.length row).1, x ≠ 0) :
    (slideLineRev row.length row).1 = row := by
  rw [slideLineRev_eq] at h ⊢
  simp only at h ⊢
  have hlen : row.length = row.reverse.length := (List.length_reverse row).symm
  rw [hlen] at h ⊢
  have hfull := slideLine_full row.reverse (by
    intro x hx
    exact h x (by simpa using hx))
  rw [hfull]
  exact List.reverse_reverse row

theorem cellAt_map_rows (f : List Nat → List Nat) (b : Board) (i j : Nat)
    (hi : i < b.length) :
    cellAt (b.map f) i j = (f (b.getD i [])).getD j 0 := by
  unfold cellAt
  rw [List.getD_eq_getElem _ [] (by simpa using hi), List.getElem_map,
    List.getD_eq_getElem _ [] hi]

theorem map_rows_eq_of_no_zero (f : List Nat → List Nat)
    (hfull : ∀ r : List Nat, (∀ x ∈ f r, x ≠ 0) → f r = r)
    (b : Board) (h : ∀ r ∈ b, ∀ x ∈ f r, x ≠ 0) : b.map f = b := by
  induction b with
  | nil => rfl
  | cons r rest ih =>
    rw [List.map_cons, hfull r (h r (by simp)),
      ih (fun r' hr' x hx => h r' (by simp [hr']) x hx)]

theorem map_rows_eq_of_cells (f : List Nat → List Nat)
    (hfull : ∀ r : List Nat, (∀ x ∈ f r, x ≠ 0) → f r = r)
    (hlen : ∀ r : List Nat, (f r).length = r.length)
    (b : Board) (hb : Squareb b)
    (h : ∀ i j, i < b.length → j < b.length → cellAt (b.map f) i j ≠ 0) :
    b.map f = b := by
  apply map_rows_eq_of_no_zero f hfull
  intro r hr x hx
  obtain ⟨i, hi, hri⟩ := List.getElem_of_mem hr
  obtain ⟨j, hj, hxj⟩ := List.getElem_of_mem hx
  have hjb : j < b.length := by
    rw [hlen r, hb r hr] at hj
    exact hj
  have hcell := h i j hi hjb
  rw [cellAt_map_rows f b i j hi, List.getD_eq_getElem _ [] hi, hri,
    List.getD_eq_getElem _ 0 hj, hxj] at hcell
  exact hcell

theorem moveLeft_length (b : Board) : (moveLeft b).length = b.length := by
  simp [moveLeft]

theorem moveRight_length (b : Board) : (moveRight b).length = b.length := by
  simp [moveRight]

theorem moveUp_length (b : Board) : (moveUp b).length = b.length := by
  simp [moveUp, transposeB_length, moveLeft_length]

theorem moveDown_length (b : Board) : (moveDown b).length = b.length := by
  simp [moveDown, transposeB_length, moveRight_length]

theorem transform_length (d : GameMove) (b : Board) :
    (transform d b).length = b.length := by
  cases d
  · exact moveLeft_length b
  · exact moveRight_length b
  · exact moveUp_length b
  · exact moveDown_length b

theorem Squareb_moveLeft (b : Board) (hb : Squareb b) : Squareb (moveLeft b) := by
  intro r hr
  rw [moveLeft_length]
  unfold moveLeft at hr
  rw [List.mem_map] at hr
  obtain ⟨r0, hr0, rfl⟩ := hr
  rw [slideLine_fst_length _ _ le_rfl]
  exact hb r0 hr0

theorem Squareb_moveRight (b : Board) (hb : Squareb b) : Squareb (moveRight b) := by
  intro r hr
  rw [moveRight_length]
  unfold moveRight at hr
  rw [List.mem_map] at hr
  obtain ⟨r0, hr0, rfl⟩ := hr
  rw [slideLineRev_fst_length _ _ le_rfl]
  exact hb r0 hr0

theorem Squareb_transform (d : GameMove) (b : Board) (hb : Squareb b) :
    Squareb (transform d b) := by
  cases d
  · exact Squareb_moveLeft b hb
  · exact Squareb_moveRight b hb
  · intro r hr
    rw [show transform GameMove.Up b = moveUp b from rfl] at hr
    unfold moveUp at hr
    have := Squareb_transposeB (moveLeft (transposeB b)) r hr
    rw [this, transposeB_length, moveLeft_length, transposeB_length]
    rw [show transform GameMove.Up b = moveUp b from rfl, moveUp_length]
  · intro r hr
    rw [show transform GameMove.Down b = moveDown b from rfl] at hr
    unfold moveDown at hr
    have := Squareb_transposeB (moveRight (transposeB b)) r hr
    rw [this, transposeB_length, moveRight_length, transposeB_length]
    rw [show transform GameMove.Down b = moveDown b from rfl, moveDown_length]

theorem moveLeft_eq_of_no_zero (b : Board) (hb : Squareb b)
    (h : ∀ i j, i < b.length → j < b.length → cellAt (moveLeft b) i j ≠ 0) :
    moveLeft b = b :=
  map_rows_eq_of_cells _ slideLine_full (fun r => slideLine_fst_length _ r le_rfl)
    b hb h

theorem moveRight_eq_of_no_zero (b : Board) (hb : Squareb b)
    (h : ∀ i j, i < b.length → j < b.length → cellAt (moveRight b) i j ≠ 0) :
    moveRight b = b :=
  map_rows_eq_of_cells _ slideLineRev_full
    (fun r => slideLineRev_fst_length _ r le_rfl) b hb h

theorem moveUp_eq_of_no_zero (b : Board) (hb : Squareb b)
    (h : ∀ i j, i < b.length → j < b.length → cellAt (moveUp b) i j ≠ 0) :
    moveUp b = b := by
  have hml : moveLeft (transposeB b) = transposeB b := by
    apply moveLeft_eq_of_no_zero _ (Squareb_transposeB b)
    intro i j hi hj
    rw [transposeB_length] at hi hj
    have hcell := h j i hj hi
    unfold moveUp at hcell
    rw [cellAt_transposeB _ j i
      (by rw [moveLeft_length, transposeB_length]; exact hj)] at hcell
    exact hcell
  unfold moveUp
  rw [hml, transposeB_transposeB b hb]

theorem moveDown_eq_of_no_zero (b : Board) (hb : Squareb b)
    (h : ∀ i j, i < b.length → j < b.length → cellAt (moveDown b) i j ≠ 0) :
    moveDown b = b := by
  have hmr : moveRight (transposeB b) = transposeB b := by
    apply moveRight_eq_of_no_zero _ (Squareb_transposeB b)
    intro i j hi hj
    rw [transposeB_length] at hi hj
    have hcell := h j i hj hi
    unfold moveDown at hcell
    rw [cellAt_transposeB _ j i
      (by rw [moveRight_length, transposeB_length]; exact hj)] at hcell
    exact hcell
  unfold moveDown
  rw [hmr, transposeB_transposeB b hb]

theorem transform_eq_of_no_zero (d : GameMove) (b : Board) (hb : Squareb b)
    (h : ∀ i j, i < b.length → j < b.length → cellAt (transform d b) i j ≠ 0) :
    transform d b = b := by
  cases d
  · exact moveLeft_eq_of_no_zero b hb h
  · exact moveRight_eq_of_no_zero b hb h
  · exact moveUp_eq_of_no_zero b hb h
  · exact moveDown_eq_of_no_zero b hb h

/-! ### Empty-cell and conservation lemmas -/

theorem mem_emptyCells (m : Board) (p : Nat × Nat) :
    p ∈ emptyCells m ↔
      p.1 < m.length ∧ p.2 < m.length ∧ cellAt m p.1 p.2 = 0 := by
  unfold emptyCells
  rw [List.mem_filter]
  simp only [List.mem_flatMap, List.mem_map, List.mem_range, beq_iff_eq]
  constructor
  · rintro ⟨⟨i, hi, j, hj, rfl⟩, hz⟩
    exact ⟨hi, hj, hz⟩
  · rintro ⟨hi, hj, hz⟩
    exact ⟨⟨p.1, hi, p.2, hj, rfl⟩, hz⟩

theorem emptyCells_eq_nil_iff (m : Board) :
    emptyCells m = [] ↔
      ∀ i j, i < m.length → j < m.length → cellAt m i j ≠ 0 := by
  constructor
  · intro h i j hi hj hz
    have : (i, j) ∈ emptyCells m := (mem_emptyCells m (i, j)).mpr ⟨hi, hj, hz⟩
    rw [h] at this
    exact absurd this (List.not_mem_nil _)
  · intro h
    rcases hc : emptyCells m with _ | ⟨p, ps⟩
    · rfl
    · exfalso
      have hp : p ∈ emptyCells m := by rw [hc]; exact List.mem_cons_self p ps
      obtain ⟨hi, hj, hz⟩ := (mem_emptyCells m p).mp hp
      exact h p.1 p.2 hi hj hz

theorem getD_mod_mem {α : Type} (l : List α) (k : Nat) (d : α) (h : l ≠ []) :
    l.getD (k % l.length) d ∈ l := by
  have hlen : 0 < l.length := List.length_pos.mpr h
  have hk : k % l.length < l.length := Nat.mod_lt k hlen
  rw [List.getD_eq_getElem l d hk]
  exact List.getElem_mem hk

/-- A legal direction's cached board always keeps an empty cell: if every
cell of the transformed board were occupied, every line would be a full,
merge-free line, and the transform would be the identity. -/
theorem emptyCells_transform_ne_nil (b : Board) (hb : Squareb b)
    (d : GameMove) (hne : b ≠ transform d b) :
    emptyCells (transform d b) ≠ [] := by
  intro h
  have hall := (emptyCells_eq_nil_iff (transform d b)).mp h
  rw [transform_length d b] at hall
  exact hne (transform_eq_of_no_zero d b hb hall).symm

theorem sumBoard_map_rows (f : List Nat → List Nat)
    (hsum : ∀ r : List Nat, (f r).sum = r.sum) (b : Board) :
    sumBoard (b.map f) = sumBoard b := by
  unfold sumBoard
  rw [List.map_map]
  congr 1
  apply List.map_congr_left
  intro r _
  exact hsum r

theorem countTiles_map_rows (f : List Nat → List Nat) (b : Board)
    (hc : ∀ r ∈ b, (f r).countP (fun x => x != 0) = r.countP (fun x => x != 0)) :
    countTiles (b.map f) = countTiles b := by
  unfold countTiles
  rw [List.map_map]
  congr 1
  apply List.map_congr_left
  intro r hr
  exact hc r hr

/-- The transform never changes the total value on the board (merging two
tiles `v` into one tile `2 * v` preserves the sum). -/
theorem sumBoard_transform (d : GameMove) (b : Board) (hb : Squareb b) :
    sumBoard (transform d b) = sumBoard b := by
  cases d
  · exact sumBoard_map_rows _ (fun r => slideLine_fst_sum r.length r) b
  · exact sumBoard_map_rows _ (fun r => slideLineRev_fst_sum r.length r) b
  · show sumBoard (moveUp b) = sumBoard b
    unfold moveUp
    rw [sumBoard_transposeB _ (Squareb_moveLeft _ (Squareb_transposeB b)),
      show moveLeft (transposeB b) =
        (transposeB b).map (fun r => (slideLine r.length r).1) from rfl,
      sumBoard_map_rows _ (fun r => slideLine_fst_sum r.length r),
      sumBoard_transposeB b hb]
  · show sumBoard (moveDown b) = sumBoard b
    unfold moveDown
    rw [sumBoard_transposeB _ (Squareb_moveRight _ (Squareb_transposeB b)),
      show moveRight (transposeB b) =
        (transposeB b).map (fun r => (slideLineRev r.length r).1) from rfl,
      sumBoard_map_rows _ (fun r => slideLineRev_fst_sum r.length r),
      sumBoard_transposeB b hb]

/-- A move whose score delta is zero performs no merge, so it preserves the
number of occupied tiles. -/
theorem countTiles_transform_of_delta_zero (d : GameMove) (b : Board)
    (hb : Squareb b) (h : delta d b = 0) :
    countTiles (transform d b) = countTiles b := by
  cases d
  · apply countTiles_map_rows
    intro r hr
    apply slideLine_countP_of_score_zero
    have : (b.map (fun r => (slideLine r.length r).2)).sum = 0 := h
    rw [List.sum_eq_zero_iff] at this
    exact this _ (List.mem_map_of_mem _ hr)
  · apply countTiles_map_rows
    intro r hr
    apply slideLineRev_countP_of_score_zero
    have : (b.map (fun r => (slideLineRev r.length r).2)).sum = 0 := h
    rw [List.sum_eq_zero_iff] at this
    exact this _ (List.mem_map_of_mem _ hr)
  · show countTiles (moveUp b) = countTiles b
    unfold moveUp
    rw [countTiles_transposeB _ (Squareb_moveLeft _ (Squareb_transposeB b))]
    have hinner : countTiles (moveLeft (transposeB b)) = countTiles (transposeB b) := by
      apply countTiles_map_rows
      intro r hr
      apply slideLine_countP_of_score_zero
      have : ((transposeB b).map (fun r => (slideLine r.length r).2)).sum = 0 := h
      rw [List.sum_eq_zero_iff] at this
      exact this _ (List.mem_map_of_mem _ hr)
    rw [show moveLeft (transposeB b) =
      (transposeB b).map (fun r => (slideLine r.length r).1) from rfl] at hinner ⊢
    rw [hinner, countTiles_transposeB b hb]
  · show countTiles (moveDown b) = countTiles b
    unfold moveDown
    rw [countTiles_transposeB _ (Squareb_moveRight _ (Squareb_transposeB b))]
    have hinner : countTiles (moveRight (transposeB b)) = countTiles (transposeB b) := by
      apply countTiles_map_rows
      intro r hr
      apply slideLineRev_countP_of_score_zero
      have : ((transposeB b).map (fun r => (slideLineRev r.length r).2)).sum = 0 := h
      rw [List.sum_eq_zero_iff] at this
      exact this _ (List.mem_map_of_mem _ hr)
    rw [show moveRight (transposeB b) =
      (transposeB b).map (fun r => (slideLineRev r.length r).1) from rfl] at hinner ⊢
    rw [hinner, countTiles_transposeB b hb]

/-! ### The cache invariant of reachable game states -/

theorem update_board (g : Game) : (update g).board = g.board := rfl

theorem update_score (g : Game) : (update g).score = g.score := rfl

theorem update_movesNext (g : Game) : (update g).movesNext = nextCalc g.board := rfl

theorem update_scoreNext (g : Game) : (update g).scoreNext = deltaCalc g.board := rfl

theorem update_moves (g : Game) : (update g).moves = movesCalc g.board := rfl

theorem update_state (g : Game) :
    (update g).state =
      if (movesCalc g.board).any (fun x => x) then g.state
      else GameState.GameOver := rfl

theorem list4_any_false (a b c d : Bool)
    (h : [a, b, c, d].any (fun x => x) = false) :
    [a, b, c, d] = [false, false, false, false] := by
  cases a <;> cases b <;> cases c <;> cases d <;> simp_all

/-- The invariant of every reachable `Game`: the board is square with side at
least 4, the caches agree with a fresh recomputation from the board, and the
state is `GameOver` exactly when no direction is legal. -/
def GameInv (g : Game) : Prop :=
  4 ≤ g.board.length ∧ Squareb g.board ∧
  g.movesNext = nextCalc g.board ∧
  g.scoreNext = deltaCalc g.board ∧
  g.moves = movesCalc g.board ∧
  (g.state = GameState.GameOver ↔
    movesCalc g.board = [false, false, false, false])

theorem gameInv_update (g : Game) (h4 : 4 ≤ g.board.length) (hsq : Squareb g.board)
    (hst : g.state = .InProgress) : GameInv (update g) := by
  refine ⟨h4, hsq, rfl, rfl, rfl, ?_⟩
  rw [update_board, update_state, hst]
  by_cases hany : (movesCalc g.board).any (fun x => x)
  · rw [if_pos hany]
    constructor
    · intro h
      exact absurd h (by simp)
    · intro h
      rw [h] at hany
      simp at hany
  · rw [if_neg hany]
    simp only [Bool.not_eq_true] at hany
    constructor
    · intro _
      exact list4_any_false _ _ _ _ hany
    · intro _
      rfl

theorem zeroBoard_length (n : Nat) : (zeroBoard n).length = n := by
  simp [zeroBoard]

theorem Squareb_zeroBoard (n : Nat) : Squareb (zeroBoard n) := by
  intro r hr
  unfold zeroBoard at hr ⊢
  rw [List.eq_of_mem_replicate hr]
  simp

theorem newTile_some (b : Board) (k : Nat) (four : Bool) (b' : Board)
    (h : newTile b k four = some b') :
    ∃ p, p ∈ emptyCells b ∧ b' = setCell b p.1 p.2 (if four then 4 else 2) := by
  unfold newTile at h
  rcases hc : emptyCells b with _ | ⟨c, cs⟩
  · rw [hc] at h
    exact absurd h (by simp)
  · rw [hc] at h
    simp only [Option.some.injEq] at h
    refine ⟨(c :: cs).getD (k % (c :: cs).length) (0, 0), ?_, h.symm⟩
    exact getD_mod_mem (c :: cs) k (0, 0) (List.cons_ne_nil c cs)


theorem newTile_ne_none (b : Board) (k : Nat) (four : Bool)
    (h : emptyCells b ≠ []) : newTile b k four ≠ none := by
  unfold newTile
  rcases hc : emptyCells b with _ | ⟨c, cs⟩
  · exact absurd hc h
  · simp

theorem gameInv_reachable (g : Game) (h : Reachable g) : GameInv g := by
  induction h with
  | new n k four g hg =>
    unfold newGame at hg
    by_cases hn : n < 4
    · rw [if_pos hn] at hg
      exact absurd hg (by simp)
    · rw [if_neg hn] at hg
      simp only [Except.ok.injEq] at hg
      subst hg
      apply gameInv_update
      · show 4 ≤ (setCell (zeroBoard n) _ _ _).length
        rw [length_setCell, zeroBoard_length]
        omega
      · exact Squareb_setCell _ _ _ _ (Squareb_zeroBoard n)
      · rfl
  | fromEx b g hg =>
    unfold fromExisting at hg
    by_cases hn : b.length < 4
    · rw [if_pos hn] at hg
      exact absurd hg (by simp)
    · rw [if_neg hn] at hg
      by_cases hsqc : b.any (fun r => r.length != b.length)
      · rw [if_pos hsqc] at hg
        exact absurd hg (by simp)
      · rw [if_neg hsqc] at hg
        by_cases hvc : b.any (fun r => r.any (fun c => !validCell c))
        · rw [if_pos hvc] at hg
          exact absurd hg (by simp)
        · rw [if_neg hvc] at hg
          simp only [Except.ok.injEq] at hg
          subst hg
          apply gameInv_update
          · show 4 ≤ b.length
            omega
          · intro r hr
            have := List.any_eq_false.mp (Bool.not_eq_true _ ▸ hsqc) r hr
            simpa using this
          · rfl
  | step g d k four fl g' hreach hmk ih =>
    obtain ⟨ih4, ihsq, ihnext, ihscore, ihmoves, ihstate⟩ := ih
    unfold makeMove at hmk
    by_cases hleg : g.moves.getD d.index false
    · rw [if_pos hleg] at hmk
      rcases hnt : newTile (g.movesNext.getD d.index []) k four with _ | b'
      · rw [hnt] at hmk
        exact absurd hmk (by simp)
      · rw [hnt] at hmk
        simp only [Option.some.injEq, Prod.mk.injEq] at hmk
        obtain ⟨-, rfl⟩ := hmk
        obtain ⟨p, hpmem, rfl⟩ := newTile_some _ _ _ _ hnt
        have htrans : g.movesNext.getD d.index [] = transform d g.board := by
          rw [ihnext]
          cases d <;> rfl
        have hstin : g.state = GameState.InProgress := by
          cases hstate : g.state
          · rfl
          · exfalso
            have hall := ihstate.mp hstate
            rw [ihmoves, hall] at hleg
            cases d <;> simp [GameMove.index] at hleg
        apply gameInv_update
        · show 4 ≤ (setCell (g.movesNext.getD d.index []) _ _ _).length
          rw [length_setCell, htrans, transform_length]
          omega
        · rw [htrans]
          exact Squareb_setCell _ _ _ _ (Squareb_transform d g.board ihsq)
        · exact hstin
    · rw [if_neg hleg] at hmk
      simp only [Option.some.injEq, Prod.mk.injEq] at hmk
      obtain ⟨-, rfl⟩ := hmk
      exact ⟨ih4, ihsq, ihnext, ihscore, ihmoves, ihstate⟩

instance decSquareb (b : Board) : Decidable (Squareb b) :=
  inferInstanceAs (Decidable (∀ r ∈ b, r.length = b.length))

/-! ### Concrete fixtures used to instantiate the theorems -/

/-- The spec's scenario board `[[2,2,0,0],[0,0,0,0],[0,0,0,0],[0,0,0,0]]`. -/
def cb : Board := [[2, 2, 0, 0], [0, 0, 0, 0], [0, 0, 0, 0], [0, 0, 0, 0]]

def defaultGame : Game := ⟨[], 0, [], [], [], .InProgress, .Pending⟩

def gameOf (r : Except Error Game) : Game :=
  match r with
  | .ok g => g
  | .error _ => defaultGame

/-- The game constructed from the scenario board. -/
def gEx : Game := gameOf (fromExisting cb)

/-- The game after a Left move on `gEx` (spawn at the first empty cell,
value 2). -/
def gEx2 : Game :=
  match makeMove gEx .Left 0 false with
  | some (_, g) => g
  | none => defaultGame

/-- A board whose only legal move is Left: the first column is empty, every
other column is full with no vertically adjacent equal pair, and every row is
right-compacted with no horizontally adjacent equal pair. -/
def obOne : Board := [[0, 2, 4, 8], [0, 4, 2, 4], [0, 2, 4, 2], [0, 4, 2, 8]]

/-- A full board with no adjacent equal tiles: terminal. -/
def obTerm : Board := [[2, 4, 2, 4], [4, 2, 4, 2], [2, 4, 2, 4], [4, 2, 4, 2]]

def gOne : Game := gameOf (fromExisting obOne)

def gTerm : Game := gameOf (fromExisting obTerm)

/-- The game after the (merge-free) Left move on `gOne`. -/
def gOne2 : Game :=
  match makeMove gOne .Left 0 false with
  | some (_, g) => g
  | none => defaultGame

/-- The board obtained by spawning on `cb` (first empty cell, value 2). -/
def cbSpawn : Board :=
  match newTile cb 0 false with
  | some b => b
  | none => []

def gEx2048 : Game2048 := fromExisting2048 cb

def default2048 : Game2048 := ⟨[], 0, [], [], false⟩

/-- The `Game2048` state after a Left move on `gEx2048`. -/
def g6After : Game2048 :=
  match makeMove2048 gEx2048 .Left 0 false with
  | some (_, g) => g
  | none => default2048

/-! ### Claim theorems -/

theorem selectStep_none (p : Nat × Nat) : selectStep none p = some p := rfl

theorem selectStep_some (q p : Nat × Nat) :
    selectStep (some q) p = if q.2 ≤ p.2 then some p else some q := rfl

/-- C1 counterexample: on the summed-score array `[1, 1, 0, 0]` (directions
Left and Right tied at the maximum) the selection step of
`Game::find_best_move` returns index 1 (Right), not the lowest index 0
(Left) attaining the maximum, because Rust's `max_by_key` keeps the last
maximal element.  This falsifies the claim that the selection step returns
the first index attaining the maximum. -/
theorem c1_selection_counterexample :
    selectBest [1, 1, 0, 0] = 1 ∧ selectBest [1, 1, 0, 0] ≠ 0 := by
  constructor
  · rfl
  · decide

/-- C1 (amended): when the parallel search runs rollouts for two or more
legal directions, the selection step returns an index of the four-entry
score array whose entry is maximal; ties are broken toward the
highest-indexed direction in the enumeration order Left, Right, Up, Down
(Rust's `max_by_key` returns the last maximal element), i.e. every entry
after the returned index is strictly smaller than the returned entry. -/
theorem c1_selection_last_argmax (a b c d : Nat) :
    selectBest [a, b, c, d] < 4 ∧
    a ≤ [a, b, c, d].getD (selectBest [a, b, c, d]) 0 ∧
    b ≤ [a, b, c, d].getD (selectBest [a, b, c, d]) 0 ∧
    c ≤ [a, b, c, d].getD (selectBest [a, b, c, d]) 0 ∧
    d ≤ [a, b, c, d].getD (selectBest [a, b, c, d]) 0 ∧
    (selectBest [a, b, c, d] < 1 → b < [a, b, c, d].getD (selectBest [a, b, c, d]) 0) ∧
    (selectBest [a, b, c, d] < 2 → c < [a, b, c, d].getD (selectBest [a, b, c, d]) 0) ∧
    (selectBest [a, b, c, d] < 3 → d < [a, b, c, d].getD (selectBest [a, b, c, d]) 0) := by
  have henum : ([a, b, c, d] : List Nat).enum = [(0, a), (1, b), (2, c), (3, d)] := rfl
  unfold selectBest
  rw [henum, List.foldl_cons, selectStep_none, List.foldl_cons, selectStep_some]
  by_cases h1 : a ≤ b
  · rw [if_pos h1, List.foldl_cons, selectStep_some]
    by_cases h2 : (1, b).2 ≤ c
    · rw [if_pos h2, List.foldl_cons, selectStep_some, List.foldl_nil]
      by_cases h3 : (2, c).2 ≤ d
      · rw [if_pos h3]
        simp at h2 h3
        refine ⟨by norm_num, ?_, ?_, ?_, ?_, ?_, ?_, ?_⟩ <;> simp [List.getD] <;> omega
      · rw [if_neg h3]
        simp at h2 h3
        refine ⟨by norm_num, ?_, ?_, ?_, ?_, ?_, ?_, ?_⟩ <;> simp [List.getD] <;> omega
    · rw [if_neg h2, List.foldl_cons, selectStep_some, List.foldl_nil]
      by_cases h3 : (1, b).2 ≤ d
      · rw [if_pos h3]
        simp at h2 h3
        refine ⟨by norm_num, ?_, ?_, ?_, ?_, ?_, ?_, ?_⟩ <;> simp [List.getD] <;> omega
      · rw [if_neg h3]
        simp at h2 h3
        refine ⟨by norm_num, ?_, ?_, ?_, ?_, ?_, ?_, ?_⟩ <;> simp [List.getD] <;> omega
  · rw [if_neg h1, List.foldl_cons, selectStep_some]
    by_cases h2 : (0, a).2 ≤ c
    · rw [if_pos h2, List.foldl_cons, selectStep_some, List.foldl_nil]
      by_cases h3 : (2, c).2 ≤ d
      · rw [if_pos h3]
        simp at h2 h3
        refine ⟨by norm_num, ?_, ?_, ?_, ?_, ?_, ?_, ?_⟩ <;> simp [List.getD] <;> omega
      · rw [if_neg h3]
        simp at h2 h3
        refine ⟨by norm_num, ?_, ?_, ?_, ?_, ?_, ?_, ?_⟩ <;> simp [List.getD] <;> omega
    · rw [if_neg h2, List.foldl_cons, selectStep_some, List.foldl_nil]
      by_cases h3 : (0, a).2 ≤ d
      · rw [if_pos h3]
        simp at h2 h3
        refine ⟨by norm_num, ?_, ?_, ?_, ?_, ?_, ?_, ?_⟩ <;> simp [List.getD] <;> omega
      · rw [if_neg h3]
        simp at h2 h3
        refine ⟨by norm_num, ?_, ?_, ?_, ?_, ?_, ?_, ?_⟩ <;> simp [List.getD] <;> omega

/-- C4: the per-line transform first compacts the non-zero tiles toward the
target edge preserving order, then performs a single pass in slide direction
merging each tile with its immediate equal neighbour, doubling the survivor,
adding the doubled value to the score delta, each tile merging at most once,
with no residual gap (`slideLine = specLine`); rows are transformed for
Left/Right (the Right pass runs on the reversed row) and columns, via
transposition, for Up/Down; and on the board
`[[2,2,0,0],[0,0,0,0],[0,0,0,0],[0,0,0,0]]` a Left move yields row 0
`[4,0,0,0]`, score delta 4 and a set legality (changed) flag. -/
theorem c4_line_transform :
    (∀ (n : Nat) (row : List Nat), slideLine n row = specLine n row) ∧
    (∀ b : Board, moveLeft b = b.map (fun r => (specLine r.length r).1)) ∧
    (∀ b : Board, moveRight b =
      b.map (fun r => (specLine r.length r.reverse).1.reverse)) ∧
    (∀ b : Board, moveUp b =
      transposeB ((transposeB b).map (fun r => (specLine r.length r).1))) ∧
    (∀ b : Board, moveDown b =
      transposeB ((transposeB b).map
        (fun r => (specLine r.length r.reverse).1.reverse))) ∧
    (gEx.moves.getD GameMove.Left.index false = true ∧
     gEx.movesNext.getD GameMove.Left.index [] =
       [[4, 0, 0, 0], [0, 0, 0, 0], [0, 0, 0, 0], [0, 0, 0, 0]] ∧
     gEx.scoreNext.getD GameMove.Left.index 0 = 4) := by
  refine ⟨slideLine_eq_specLine, ?_, ?_, ?_, ?_, by decide, by decide, by decide⟩
  · intro b
    unfold moveLeft
    apply List.map_congr_left
    intro r _
    rw [slideLine_eq_specLine]
  · intro b
    unfold moveRight
    apply List.map_congr_left
    intro r _
    rw [slideLineRev_eq, slideLine_eq_specLine]
  · intro b
    unfold moveUp moveLeft
    congr 1
    apply List.map_congr_left
    intro r _
    rw [slideLine_eq_specLine]
  · intro b
    unfold moveDown moveRight
    congr 1
    apply List.map_congr_left
    intro r _
    rw [slideLineRev_eq, slideLine_eq_specLine]

/-- C9: the search dispatch of `Game::find_best_move`: with no legal
direction it fails with `NoValidMove`; with exactly one legal direction it
returns that direction immediately, independently of the rollout scores and
of the requested depth (no rollout result can influence it). -/
theorem c9_search_dispatch (g : Game) (depth : Nat) (scores : GameMove → Nat)
    (m0 m1 m2 m3 : Bool) (hm : g.moves = [m0, m1, m2, m3]) :
    ((g.moves.filter (fun x => x)).length = 0 →
      findBestMove g depth scores = .error .NoValidMove) ∧
    (∀ d : GameMove, (g.moves.filter (fun x => x)).length = 1 →
      g.moves.getD d.index false = true →
      findBestMove g depth scores = .ok d) := by
  constructor
  · intro hcnt
    unfold findBestMove
    rw [hm] at hcnt ⊢
    cases m0 <;> cases m1 <;> cases m2 <;> cases m3 <;> simp_all
  · intro d hcnt hleg
    unfold findBestMove
    rw [hm] at hcnt hleg ⊢
    cases d <;> cases m0 <;> cases m1 <;> cases m2 <;> cases m3 <;>
      simp_all [GameMove.index, GameMove.fromIndex, List.findIdx_cons]

/-- C9 witness: with `depth = 1000`, on a board with exactly one legal move
(Left) the search returns Left for every rollout oracle, and on a terminal
board it fails with `NoValidMove`. -/
theorem c9_search_dispatch_witness :
    findBestMove gOne 1000 (fun _ => 0) = .ok .Left ∧
    findBestMove gTerm 1000 (fun _ => 0) = .error .NoValidMove := by
  constructor
  · exact (c9_search_dispatch gOne 1000 (fun _ => 0) true false false false
      (by decide)).2 .Left (by decide) (by decide)
  · exact (c9_search_dispatch gTerm 1000 (fun _ => 0) false false false false
      (by decide)).1 (by decide)

/-- C5: in every reachable game state (after construction and after every
move), a direction is legal exactly when its transform yields a board
different from the current one, and the set of legal directions is empty
exactly when the state is `GameOver`. -/
theorem c5_legality_terminal (g : Game) (h : Reachable g) :
    (∀ d : GameMove,
      g.moves.getD d.index false = true ↔ transform d g.board ≠ g.board) ∧
    ((∀ d : GameMove, g.moves.getD d.index false = false) ↔
      g.state = GameState.GameOver) := by
  obtain ⟨-, -, -, -, ihmoves, ihstate⟩ := gameInv_reachable g h
  constructor
  · intro d
    rw [ihmoves]
    cases d <;>
      simp [movesCalc, GameMove.index, transform, ne_comm]
  · rw [ihstate]
    constructor
    · intro hall
      have h0 := hall .Left
      have h1 := hall .Right
      have h2 := hall .Up
      have h3 := hall .Down
      rw [ihmoves] at h0 h1 h2 h3
      simp only [movesCalc, GameMove.index, List.getD_cons_zero,
        List.getD_cons_succ] at h0 h1 h2 h3
      simp only [movesCalc, h0, h1, h2, h3]
    · intro hall d
      rw [ihmoves, hall]
      cases d <;> rfl

/-- C5 witness: the equivalences instantiated at the game built from the
scenario board `[[2,2,0,0],[0,0,0,0],[0,0,0,0],[0,0,0,0]]`. -/
theorem c5_legality_terminal_witness :
    (∀ d : GameMove,
      gEx.moves.getD d.index false = true ↔ transform d gEx.board ≠ gEx.board) ∧
    ((∀ d : GameMove, gEx.moves.getD d.index false = false) ↔
      gEx.state = GameState.GameOver) :=
  c5_legality_terminal gEx (Reachable.fromEx cb gEx rfl)

/-- C10: in every reachable game state, the cached board of a legal
direction keeps at least one empty cell, so the tile spawner invoked by
`Game::make_move` always finds a candidate and its `.unwrap()` cannot panic
(`makeMove` never returns the panic value `none`). -/
theorem c10_spawner_safe (g : Game) (h : Reachable g) (d : GameMove)
    (hleg : g.moves.getD d.index false = true) :
    emptyCells (g.movesNext.getD d.index []) ≠ [] ∧
    ∀ (k : Nat) (four : Bool), makeMove g d k four ≠ none := by
  obtain ⟨-, ihsq, ihnext, -, ihmoves, -⟩ := gameInv_reachable g h
  have htrans : g.movesNext.getD d.index [] = transform d g.board := by
    rw [ihnext]
    cases d <;> rfl
  have hne : g.board ≠ transform d g.board := by
    rw [ihmoves] at hleg
    cases d <;> simpa [movesCalc, GameMove.index] using hleg
  have hmain : emptyCells (transform d g.board) ≠ [] :=
    emptyCells_transform_ne_nil g.board ihsq d hne
  refine ⟨by rw [htrans]; exact hmain, ?_⟩
  intro k four
  unfold makeMove
  rw [if_pos hleg]
  rcases hnt : newTile (g.movesNext.getD d.index []) k four with _ | b'
  · exfalso
    rw [htrans] at hnt
    exact newTile_ne_none _ k four hmain hnt
  · simp

/-- C10 witness: the spawner-safety statement instantiated at the scenario
game and its legal Left move. -/
theorem c10_spawner_safe_witness :
    emptyCells (gEx.movesNext.getD GameMove.Left.index []) ≠ [] ∧
    ∀ (k : Nat) (four : Bool), makeMove gEx .Left k four ≠ none :=
  c10_spawner_safe gEx (Reachable.fromEx cb gEx rfl) .Left (by decide)

/-- C2 counterexample: on the scenario game (board
`[[2,2,0,0],0,0,0]`, 2 tiles) the successful Left move merges the two 2s and
spawns one tile, leaving 2 tiles — not 3 = 2 + 1 — while the board is far
from full (it still has an empty cell).  This falsifies the claim that the
tile count after a successful move is one more than before the move, or the
board is full. -/
theorem c2_tile_count_counterexample :
    makeMove gEx .Left 0 false = some (true, gEx2) ∧
    countTiles gEx.board = 2 ∧
    countTiles gEx2.board = 2 ∧
    (∃ i j, i < gEx2.board.length ∧ j < gEx2.board.length ∧
      cellAt gEx2.board i j = 0) := by
  refine ⟨by decide, by decide, by decide, 2, 2, by decide, by decide, by decide⟩

/-- C2 (amended): a successful move spawns exactly one new tile: the number
of non-zero tiles after the move is exactly one more than on the adopted
(transformed) board; when the move performs no merge (its cached score delta
is 0) this is exactly one more than before the move. -/
theorem c2_tile_count (g : Game) (d : GameMove) (k : Nat) (four : Bool)
    (g' : Game) (h : Reachable g)
    (hmk : makeMove g d k four = some (true, g')) :
    countTiles g'.board = countTiles (g.movesNext.getD d.index []) + 1 ∧
    (g.scoreNext.getD d.index 0 = 0 →
      countTiles g'.board = countTiles g.board + 1) := by
  obtain ⟨-, ihsq, ihnext, ihscore, -, -⟩ := gameInv_reachable g h
  have htrans : g.movesNext.getD d.index [] = transform d g.board := by
    rw [ihnext]
    cases d <;> rfl
  have hdelta : g.scoreNext.getD d.index 0 = delta d g.board := by
    rw [ihscore]
    cases d <;> rfl
  unfold makeMove at hmk
  by_cases hleg : g.moves.getD d.index false
  · rw [if_pos hleg] at hmk
    rcases hnt : newTile (g.movesNext.getD d.index []) k four with _ | b'
    · rw [hnt] at hmk
      exact absurd hmk (by simp)
    · rw [hnt] at hmk
      simp only [Option.some.injEq, Prod.mk.injEq] at hmk
      obtain ⟨-, rfl⟩ := hmk
      obtain ⟨p, hpmem, rfl⟩ := newTile_some _ _ _ _ hnt
      rw [htrans] at hpmem ⊢
      obtain ⟨hp1, hp2, hpz⟩ := (mem_emptyCells _ p).mp hpmem
      have hsqt : Squareb (transform d g.board) := Squareb_transform d g.board ihsq
      have hrow : ((transform d g.board).getD p.1 []).length =
          (transform d g.board).length :=
        row_length_of_squareb _ hsqt p.1 hp1
      have hcount : countTiles
          (setCell (transform d g.board) p.1 p.2 (if four then 4 else 2)) =
          countTiles (transform d g.board) + 1 := by
        apply countTiles_setCell _ _ _ _ hp1 (by omega) hpz
        cases four <;> simp
      rw [update_board]
      constructor
      · exact hcount
      · intro hz
        rw [hdelta] at hz
        rw [hcount, countTiles_transform_of_delta_zero d g.board ihsq hz]
  · rw [if_neg hleg] at hmk
    simp at hmk

/-- C2 witness: the amended count law instantiated on the merge-free Left
move of the board `[[0,2,4,8],[0,4,2,4],[0,2,4,2],[0,4,2,8]]` (12 tiles):
both the cached Left board plus spawn and the original board plus spawn give
13 tiles. -/
theorem c2_tile_count_witness :
    countTiles gOne2.board =
      countTiles (gOne.movesNext.getD GameMove.Left.index []) + 1 ∧
    countTiles gOne2.board = countTiles gOne.board + 1 :=
  ⟨(c2_tile_count gOne .Left 0 false gOne2
      (Reachable.fromEx obOne gOne rfl) (by decide)).1,
   (c2_tile_count gOne .Left 0 false gOne2
      (Reachable.fromEx obOne gOne rfl) (by decide)).2 (by decide)⟩

/-- C3 counterexample: on the scenario board a Left move performs one merge
(score delta 4, the merged value), yet the sum of all cells stays 4 — it
does not increase by the merged value.  This falsifies the claim that the
cell sum increases by exactly the merged value on any merge. -/
theorem c3_sum_counterexample :
    delta GameMove.Left cb = 4 ∧ sumBoard cb = 4 ∧
    sumBoard (transform GameMove.Left cb) = 4 ∧
    sumBoard (transform GameMove.Left cb) ≠ sumBoard cb + 4 := by
  refine ⟨by decide, by decide, by decide, by decide⟩

/-- C3 (amended): for every square board and every direction, the sliding
transform preserves the sum of all cell values — both on merge-free moves
and on merges (two tiles `v` become one tile `2 * v`); the score delta, not
the cell sum, records the merged values.  Spawning adds exactly one tile's
value, 2 or 4, to the sum. -/
theorem c3_sum_conservation :
    (∀ (b : Board) (d : GameMove), Squareb b →
      sumBoard (transform d b) = sumBoard b) ∧
    (∀ (b : Board) (k : Nat) (four : Bool) (b' : Board), Squareb b →
      newTile b k four = some b' →
      sumBoard b' = sumBoard b + (if four then 4 else 2)) := by
  constructor
  · intro b d hb
    exact sumBoard_transform d b hb
  · intro b k four b' hb hnt
    obtain ⟨p, hpmem, rfl⟩ := newTile_some _ _ _ _ hnt
    obtain ⟨hp1, hp2, hpz⟩ := (mem_emptyCells _ p).mp hpmem
    have hrow : (b.getD p.1 []).length = b.length :=
      row_length_of_squareb _ hb p.1 hp1
    have := sumBoard_setCell b p.1 p.2 (if four then 4 else 2) hp1 (by omega)
    rw [hpz] at this
    omega

/-- C3 witness: sum conservation on the Up transform of the scenario board,
and a concrete spawn (value 2) raising the sum from 4 to 6. -/
theorem c3_sum_conservation_witness :
    sumBoard (transform GameMove.Up cb) = sumBoard cb ∧
    sumBoard cbSpawn = sumBoard cb + 2 := by
  constructor
  · exact c3_sum_conservation.1 cb .Up (by decide)
  · have := c3_sum_conservation.2 cb 0 false cbSpawn (by decide) (by decide)
    simpa using this

theorem sum_map_flatten (L : List (List Nat)) (f : Nat → Nat) :
    ((L.flatten).map f).sum = (L.map (fun l => (l.map f).sum)).sum := by
  rw [List.map_flatten, List.sum_flatten, List.map_map]
  rfl

/-- C7: the score delta of every direction equals the sum of `2 * v` over
every merge of two tiles valued `v` performed by that move; it is never
negative (scores are natural numbers); and the accumulated score never
decreases across `Game::make_move`, successful or not. -/
theorem c7_score_accounting :
    (∀ (d : GameMove) (b : Board),
      delta d b = ((boardMerges d b).map (fun v => 2 * v)).sum) ∧
    (∀ (d : GameMove) (b : Board), 0 ≤ delta d b) ∧
    (∀ (g : Game) (d : GameMove) (k : Nat) (four : Bool) (fl : Bool)
      (g' : Game), makeMove g d k four = some (fl, g') →
      g.score ≤ g'.score) := by
  refine ⟨?_, fun d b => Nat.zero_le _, ?_⟩
  · have hrowL : ∀ r : List Nat, (slideLine r.length r).2 =
        ((mergesOf (r.filter (fun x => x != 0))).map (fun v => 2 * v)).sum := by
      intro r
      rw [slideLine_eq, mergeLine_score]
    have hrowR : ∀ r : List Nat, (slideLineRev r.length r).2 =
        ((mergesOf (r.reverse.filter (fun x => x != 0))).map (fun v => 2 * v)).sum := by
      intro r
      rw [slideLineRev_eq]
      simp only
      rw [slideLine_eq, mergeLine_score]
    intro d b
    cases d <;>
      simp only [delta, deltaLeft, deltaRight, deltaUp, deltaDown,
        boardMerges] <;>
      rw [sum_map_flatten, List.map_map] <;>
      refine congrArg List.sum (List.map_congr_left ?_) <;>
      intro r _ <;>
      simp only [Function.comp] <;>
      first
        | exact hrowL r
        | exact hrowR r
  · intro g d k four fl g' hmk
    unfold makeMove at hmk
    by_cases hleg : g.moves.getD d.index false
    · rw [if_pos hleg] at hmk
      rcases hnt : newTile (g.movesNext.getD d.index []) k four with _ | b'
      · rw [hnt] at hmk
        exact absurd hmk (by simp)
      · rw [hnt] at hmk
        simp only [Option.some.injEq, Prod.mk.injEq] at hmk
        obtain ⟨-, rfl⟩ := hmk
        rw [update_score]
        exact Nat.le_add_right _ _
    · rw [if_neg hleg] at hmk
      simp only [Option.some.injEq, Prod.mk.injEq] at hmk
      obtain ⟨-, rfl⟩ := hmk
      exact le_rfl

/-- C7 witness: the merge accounting on the scenario board's Left move
(one merge of two 2s, delta 4), and score monotonicity across that move
(score 0 to 4). -/
theorem c7_score_accounting_witness :
    delta GameMove.Left cb =
      ((boardMerges GameMove.Left cb).map (fun v => 2 * v)).sum ∧
    gEx.score ≤ gEx2.score :=
  ⟨c7_score_accounting.1 .Left cb,
   c7_score_accounting.2.2 gEx .Left 0 false true gEx2 (by decide)⟩

/-- The validation of `Game::from_existing` accepts exactly 0 and the powers
of two from 2 upward; in particular 1 and every non-zero non-power-of-two
are rejected. -/
theorem validCell_iff (c : Nat) :
    validCell c = true ↔ c = 0 ∨ ∃ m, 1 ≤ m ∧ c = 2 ^ m := by
  match c with
  | 0 => simp [validCell]
  | 1 =>
    simp only [validCell, Bool.false_eq_true, false_iff]
    push_neg
    refine ⟨by omega, ?_⟩
    intro m hm
    have : 2 ≤ 2 ^ m := by
      calc 2 = 2 ^ 1 := rfl
      _ ≤ 2 ^ m := Nat.pow_le_pow_right (by omega) hm
    omega
  | (k + 2) =>
    have hne : k + 2 ≠ 0 := by omega
    have : validCell (k + 2) = decide (2 ^ ilog2 (k + 2) = k + 2) := rfl
    rw [this, decide_eq_true_iff, ilog2_eq_log2]
    constructor
    · intro h
      refine Or.inr ⟨Nat.log2 (k + 2), ?_, h.symm⟩
      rw [Nat.le_log2 hne]
      omega
    · rintro (h | ⟨m, hm, heq⟩)
      · omega
      · have hlog : Nat.log2 (2 ^ m) = m := by
          apply Nat.le_antisymm
          · have := (Nat.log2_lt (by positivity)).mpr
              (Nat.pow_lt_pow_right (by omega) (Nat.lt_succ_self m))
            omega
          · rw [Nat.le_log2 (by positivity)]
        rw [heq, hlog]

/-- C8: construction from an existing board fails with `InvalidSize` when
the side is below 4, with `InvalidBoard` when (the side being at least 4)
the nested grid is not square, and with `InvalidValue` when (size and shape
being fine) some cell is invalid — 1 or any other non-zero
non-power-of-two; on failure no game is produced (the result carries no
state), and on success the given board is adopted unchanged with score 0
and no tile is spawned. -/
theorem c8_construction (b : Board) :
    (b.length < 4 → fromExisting b = .error .InvalidSize) ∧
    (4 ≤ b.length → (∃ r ∈ b, r.length ≠ b.length) →
      fromExisting b = .error .InvalidBoard) ∧
    (4 ≤ b.length → (∀ r ∈ b, r.length = b.length) →
      (∃ r ∈ b, ∃ c ∈ r, c ≠ 0 ∧ ∀ m, 1 ≤ m → c ≠ 2 ^ m) →
      fromExisting b = .error .InvalidValue) ∧
    (∀ g : Game, fromExisting b = .ok g → g.board = b ∧ g.score = 0) := by
  refine ⟨?_, ?_, ?_, ?_⟩
  · intro h
    unfold fromExisting
    rw [if_pos h]
  · intro h4 hsq
    unfold fromExisting
    rw [if_neg (by omega)]
    rw [if_pos ?_]
    obtain ⟨r, hr, hlen⟩ := hsq
    rw [List.any_eq_true]
    exact ⟨r, hr, by simpa using hlen⟩
  · intro h4 hsq hbad
    unfold fromExisting
    rw [if_neg (by omega)]
    rw [if_neg ?hsq]
    case hsq =>
      rw [Bool.not_eq_true, List.any_eq_false]
      intro r hr
      simp [hsq r hr]
    rw [if_pos ?_]
    obtain ⟨r, hr, c, hc, hcz, hcp⟩ := hbad
    rw [List.any_eq_true]
    refine ⟨r, hr, ?_⟩
    rw [List.any_eq_true]
    refine ⟨c, hc, ?_⟩
    simp only [Bool.not_eq_eq_eq_not, Bool.not_true]
    rw [← Bool.not_eq_true, validCell_iff]
    push_neg
    exact ⟨hcz, fun m hm => hcp m hm⟩
  · intro g hg
    unfold fromExisting at hg
    by_cases h1 : b.length < 4
    · rw [if_pos h1] at hg
      exact absurd hg (by simp)
    · rw [if_neg h1] at hg
      by_cases h2 : b.any (fun r => r.length != b.length)
      · rw [if_pos h2] at hg
        exact absurd hg (by simp)
      · rw [if_neg h2] at hg
        by_cases h3 : b.any (fun r => r.any (fun c => !validCell c))
        · rw [if_pos h3] at hg
          exact absurd hg (by simp)
        · rw [if_neg h3] at hg
          simp only [Except.ok.injEq] at hg
          subst hg
          exact ⟨rfl, rfl⟩

/-- C8 witness: a 3×3 grid fails with `InvalidSize`, a ragged 4-row grid
with `InvalidBoard`, a board containing a 1 with `InvalidValue`, and the
valid scenario board is adopted as given with score 0. -/
theorem c8_construction_witness :
    fromExisting [[0, 0, 0], [0, 0, 0], [0, 0, 0]] = .error .InvalidSize ∧
    fromExisting [[2, 0, 0, 0], [0, 0], [0, 0, 0, 0], [0, 0, 0, 0]] =
      .error .InvalidBoard ∧
    fromExisting [[1, 0, 0, 0], [0, 0, 0, 0], [0, 0, 0, 0], [0, 0, 0, 0]] =
      .error .InvalidValue ∧
    (gEx.board = cb ∧ gEx.score = 0) := by
  refine ⟨(c8_construction _).1 (by decide),
    (c8_construction _).2.1 (by decide) ⟨[0, 0], by decide, by decide⟩,
    (c8_construction _).2.2.1 (by decide) (by decide)
      ⟨[1, 0, 0, 0], by decide, 1, by decide, by decide, ?_⟩,
    (c8_construction _).2.2.2 gEx rfl⟩
  intro m hm
  have : 2 ≤ 2 ^ m := by
    calc 2 = 2 ^ 1 := rfl
    _ ≤ 2 ^ m := Nat.pow_le_pow_right (by omega) hm
  omega

/-- Classification of the tail of `Game2048::make_move` over an arbitrary
post-update state `g1`. -/
theorem classify2048_aux (wonPrev : Bool) (g1 : Game2048)
    (hwon : g1.won = wonPrev) (r : Except Error2048 Success2048)
    (g' : Game2048)
    (h : (if isGameOver2048 g1 then
            some ((Except.error Error2048.GameOver :
              Except Error2048 Success2048), g1)
          else if !g1.won && isGameWon2048 g1 then
            some (Except.ok Success2048.Victory, { g1 with won := true })
          else some (Except.ok Success2048.Moved, g1)) = some (r, g')) :
    (r = .error .GameOver ↔ isGameOver2048 g' = true) ∧
    (r = .ok .Victory ↔
      (isGameOver2048 g' = false ∧ wonPrev = false ∧
       isGameWon2048 g' = true)) ∧
    (r = .ok .Moved ↔
      (isGameOver2048 g' = false ∧
       (wonPrev = true ∨ isGameWon2048 g' = false))) := by
  have hover' : isGameOver2048 { g1 with won := true } = isGameOver2048 g1 := rfl
  have hwon' : isGameWon2048 { g1 with won := true } = isGameWon2048 g1 := rfl
  by_cases hover : isGameOver2048 g1
  · rw [if_pos hover] at h
    simp only [Option.some.injEq, Prod.mk.injEq] at h
    obtain ⟨rfl, rfl⟩ := h
    refine ⟨by simp [hover], by simp [hover], by simp [hover]⟩
  · rw [if_neg hover] at h
    simp only [Bool.not_eq_true] at hover
    by_cases hvic : (!g1.won && isGameWon2048 g1) = true
    · rw [if_pos hvic] at h
      simp only [Option.some.injEq, Prod.mk.injEq] at h
      obtain ⟨rfl, rfl⟩ := h
      simp only [Bool.and_eq_true, Bool.not_eq_true'] at hvic
      obtain ⟨hw, hg⟩ := hvic
      rw [hwon] at hw
      refine ⟨by simp [hover', hover], ?_, ?_⟩
      · simp [hover', hover, hw, hwon', hg]
      · simp [hover', hover, hw, hwon', hg]
    · rw [if_neg hvic] at h
      simp only [Option.some.injEq, Prod.mk.injEq] at h
      obtain ⟨rfl, rfl⟩ := h
      simp only [Bool.and_eq_true, Bool.not_eq_true', not_and] at hvic
      rw [hwon] at hvic
      refine ⟨by simp [hover], ?_, ?_⟩
      · simp only [hover, true_and]
        constructor
        · intro hcontr
          exact absurd hcontr (by simp)
        · rintro ⟨hwf, hwt⟩
          rw [hwt] at hvic
          exact absurd (hvic hwf) (by simp)
      · simp only [hover, true_and]
        constructor
        · intro _
          cases hw : wonPrev
          · exact Or.inr (by simpa using hvic hw)
          · exact Or.inl rfl
        · intro _
          trivial

/-- C6: `Game2048::make_move` on a direction that is not currently legal
returns `Err(InvalidMove)` with the entire state unchanged; on a legal
direction the (non-panicking) result distinguishes the three outcomes —
`Err(GameOver)` exactly when no legal move remains after the move,
`Ok(Victory)` exactly when the game survives and 2048 is reached for the
first time, and `Ok(Moved)` in every other case — so a consumer can tell
them apart. -/
theorem c6_move_result (g : Game2048) (d : GameMove) (k : Nat) (four : Bool) :
    (g.moves.getD d.index false = false →
      makeMove2048 g d k four = some (.error .InvalidMove, g)) ∧
    (∀ (r : Except Error2048 Success2048) (g' : Game2048),
      makeMove2048 g d k four = some (r, g') →
      g.moves.getD d.index false = true →
      ((r = .error .GameOver ↔ isGameOver2048 g' = true) ∧
       (r = .ok .Victory ↔
         (isGameOver2048 g' = false ∧ g.won = false ∧
          isGameWon2048 g' = true)) ∧
       (r = .ok .Moved ↔
         (isGameOver2048 g' = false ∧
          (g.won = true ∨ isGameWon2048 g' = false))))) := by
  constructor
  · intro hleg
    unfold makeMove2048
    rw [hleg]
    simp
  · intro r g' hmk hleg
    unfold makeMove2048 at hmk
    rw [hleg] at hmk
    simp only [if_true] at hmk
    rcases hnt : newTile (g.movesValues.getD d.index ([], 0)).1 k four with _ | b'
    · rw [hnt] at hmk
      exact absurd hmk (by simp)
    · rw [hnt] at hmk
      exact classify2048_aux g.won
        (update2048 { g with board := b', score := g.score + (g.movesValues.getD d.index ([], 0)).2 })
        rfl r g' hmk

deriving instance DecidableEq for Except

/-- C6 witness: on the `Game2048` built from the scenario board, an Up move
is illegal and returns `Err(InvalidMove)` with the state unchanged, while
the legal Left move returns `Ok(Moved)` on a surviving, non-winning
position. -/
theorem c6_move_result_witness :
    makeMove2048 gEx2048 .Up 0 false = some (.error .InvalidMove, gEx2048) ∧
    (Except.ok Success2048.Moved = Except.error Error2048.GameOver ↔
      isGameOver2048 g6After = true) :=
  ⟨(c6_move_result gEx2048 .Up 0 false).1 (by decide),
   ((c6_move_result gEx2048 .Left 0 false).2 (.ok .Moved) g6After
     (by decide) (by decide)).1⟩

/-- C1 witness: on the score array `[9, 3, 5, 7]` the selection step picks
index 0 (the unique maximum), and every later entry is strictly smaller. -/
theorem c1_selection_last_argmax_witness :
    selectBest [9, 3, 5, 7] < 4 ∧
    3 < [9, 3, 5, 7].getD (selectBest [9, 3, 5, 7]) 0 ∧
    5 < [9, 3, 5, 7].getD (selectBest [9, 3, 5, 7]) 0 ∧
    7 < [9, 3, 5, 7].getD (selectBest [9, 3, 5, 7]) 0 :=
  ⟨(c1_selection_last_argmax 9 3 5 7).1,
   (c1_selection_last_argmax 9 3 5 7).2.2.2.2.2.1 (by decide),
   (c1_selection_last_argmax 9 3 5 7).2.2.2.2.2.2.1 (by decide),
   (c1_selection_last_argmax 9 3 5 7).2.2.2.2.2.2.2 (by decide)⟩
